import Mathlib

/-!
Verification of the DineBot order-reconciliation core.

The definitions below are a shallow embedding of the application code:
JavaScript numbers are modelled as exact decimals (`ℚ`), with `Option ℚ`
standing for a number-or-NaN, strings are manipulated at the `List Char`
level so that the JavaScript string primitives (`replace('₹','')`,
`trim()`, `parseFloat`, `Number(...)`, `toFixed(2)`) have faithful,
executable counterparts.
-/

namespace DineBot

/-! ## Characters and digits -/

/-- Numeric value of a digit character (JS `charCodeAt - 48`). -/
def charVal (c : Char) : ℕ := c.toNat - 48

/-- Digit character for a value `0..9` (values `≥ 9` render as `'9'`). -/
def digitChar : ℕ → Char
  | 0 => '0' | 1 => '1' | 2 => '2' | 3 => '3' | 4 => '4'
  | 5 => '5' | 6 => '6' | 7 => '7' | 8 => '8' | _ => '9'

/-- ASCII digit test (`'0' ≤ c ≤ '9'`). -/
def isDigitB (c : Char) : Bool := 48 ≤ c.toNat && c.toNat ≤ 57

/-- ASCII whitespace test, the characters JS `trim` strips in our domain. -/
def isSpaceB (c : Char) : Bool := c = ' ' || c = '\t' || c = '\n' || c = '\r'

theorem charVal_digitChar {n : ℕ} (h : n < 10) : charVal (digitChar n) = n := by
  interval_cases n <;> rfl

theorem isDigitB_digitChar (n : ℕ) : isDigitB (digitChar n) = true := by
  match n with
  | 0 => rfl | 1 => rfl | 2 => rfl | 3 => rfl | 4 => rfl
  | 5 => rfl | 6 => rfl | 7 => rfl | 8 => rfl | n + 9 => rfl

theorem toNat_digitChar {n : ℕ} (h : n < 10) : (digitChar n).toNat = 48 + n := by
  interval_cases n <;> rfl

theorem charVal_lt_ten {c : Char} (h : isDigitB c = true) : charVal c < 10 := by
  simp only [isDigitB, Bool.and_eq_true, decide_eq_true_eq] at h
  simp only [charVal]
  omega

theorem digitChar_charVal {c : Char} (h : isDigitB c = true) :
    digitChar (charVal c) = c := by
  simp only [isDigitB, Bool.and_eq_true, decide_eq_true_eq] at h
  have hv : (digitChar (charVal c)).toNat = c.toNat := by
    rw [toNat_digitChar (by simp only [charVal]; omega)]
    simp only [charVal]; omega
  exact Char.ext (UInt32.ext hv)

theorem not_isSpaceB_of_isDigitB {c : Char} (h : isDigitB c = true) :
    isSpaceB c = false := by
  simp only [isDigitB, Bool.and_eq_true, decide_eq_true_eq] at h
  have h1 : c ≠ ' ' := fun hc => absurd (hc ▸ h) (by decide)
  have h2 : c ≠ '\t' := fun hc => absurd (hc ▸ h) (by decide)
  have h3 : c ≠ '\n' := fun hc => absurd (hc ▸ h) (by decide)
  have h4 : c ≠ '\r' := fun hc => absurd (hc ▸ h) (by decide)
  simp [isSpaceB, h1, h2, h3, h4]

/-! ## Decimal rendering and parsing of natural numbers -/

/-- Render a natural number as its base-10 digit characters. -/
def natToChars (n : ℕ) : List Char :=
  if _h : n < 10 then [digitChar n]
  else natToChars (n / 10) ++ [digitChar (n % 10)]
termination_by n
decreasing_by exact Nat.div_lt_self (by omega) (by omega)

/-- Accumulator step when reading one more base-10 digit character. -/
def digitStep (acc : ℕ) (c : Char) : ℕ := acc * 10 + charVal c

/-- Read base-10 digit characters back as a natural number. -/
def charsToNat (cs : List Char) : ℕ := cs.foldl digitStep 0

theorem foldl_digitStep_append (acc : ℕ) (xs ys : List Char) :
    (xs ++ ys).foldl digitStep acc = ys.foldl digitStep (xs.foldl digitStep acc) :=
  List.foldl_append _ _ _ _

theorem charsToNat_natToChars (n : ℕ) : charsToNat (natToChars n) = n := by
  induction n using Nat.strong_induction_on with
  | _ n ih =>
    rw [natToChars.eq_def]
    by_cases h : n < 10
    · rw [dif_pos h]
      simp only [charsToNat, List.foldl_cons, List.foldl_nil, digitStep,
        Nat.zero_mul, Nat.zero_add]
      exact charVal_digitChar h
    · rw [dif_neg h]
      have hd : n / 10 < n := Nat.div_lt_self (by omega) (by omega)
      have hih := ih (n / 10) hd
      simp only [charsToNat] at hih ⊢
      rw [foldl_digitStep_append, hih]
      simp only [List.foldl_cons, List.foldl_nil, digitStep,
        charVal_digitChar (Nat.mod_lt n (by omega))]
      omega

theorem mem_natToChars_isDigitB {c : Char} {n : ℕ} (h : c ∈ natToChars n) :
    isDigitB c = true := by
  induction n using Nat.strong_induction_on with
  | _ n ih =>
    rw [natToChars.eq_def] at h
    by_cases hn : n < 10
    · simp only [hn, dif_pos, List.mem_singleton] at h
      subst h; exact isDigitB_digitChar n
    · simp only [hn, dif_neg, not_false_iff, List.mem_append, List.mem_singleton] at h
      rcases h with h | h
      · exact ih (n / 10) (Nat.div_lt_self (by omega) (by omega)) h
      · subst h; exact isDigitB_digitChar _

theorem natToChars_ne_nil (n : ℕ) : natToChars n ≠ [] := by
  rw [natToChars.eq_def]
  by_cases h : n < 10 <;> simp [h]

theorem le_foldl_digitStep (acc : ℕ) (cs : List Char) : acc ≤ cs.foldl digitStep acc := by
  induction cs generalizing acc with
  | nil => exact Nat.le_refl _
  | cons c cs ih =>
    rw [List.foldl_cons]
    calc acc ≤ digitStep acc c := by simp only [digitStep]; omega
    _ ≤ _ := ih _

theorem charsToNat_pos {c : Char} {cs : List Char} (h : c ≠ '0')
    (hd : isDigitB c = true) : 0 < charsToNat (c :: cs) := by
  have h1 : 1 ≤ charVal c := by
    simp only [isDigitB, Bool.and_eq_true, decide_eq_true_eq] at hd
    have : c.toNat ≠ 48 := fun hc => h (Char.ext (UInt32.ext (by simpa [Char.toNat] using hc)))
    simp only [charVal]; omega
  simp only [charsToNat, List.foldl_cons]
  have : digitStep 0 c = charVal c := by simp [digitStep]
  rw [this]
  exact Nat.lt_of_lt_of_le h1 (le_foldl_digitStep _ _)

theorem natToChars_charsToNat :
    ∀ (ds : List Char), ds ≠ [] → (∀ c ∈ ds, isDigitB c = true) →
      (ds.head? = some '0' → ds.length = 1) →
      natToChars (charsToNat ds) = ds := by
  intro ds
  induction ds using List.reverseRecOn with
  | nil => intro h; exact absurd rfl h
  | append_singleton ds d ih =>
    intro _ hdig hlead
    match hds : ds with
    | [] =>
      have hd : isDigitB d = true := hdig d (by simp)
      have hvd : charVal d < 10 := charVal_lt_ten hd
      have hval : charsToNat ([] ++ [d]) = charVal d := by
        simp [charsToNat, digitStep]
      rw [hval, natToChars.eq_def, dif_pos hvd, digitChar_charVal hd]
      simp
    | e :: ds' =>
      have hdsne : e :: ds' ≠ [] := by simp
      have hdige : ∀ c ∈ e :: ds', isDigitB c = true := fun c hc =>
        hdig c (List.mem_append_left _ hc)
      have hleade : (e :: ds').head? = some '0' → (e :: ds').length = 1 := by
        intro he
        have := hlead (by simpa using he)
        simp at this
      have hne0 : e ≠ '0' := by
        intro he
        have h2 := hlead (by simp [he])
        simp only [List.length_append, List.length_cons, List.length_singleton] at h2
        omega
      have hpos : 0 < charsToNat (e :: ds') := charsToNat_pos hne0 (hdige e (by simp))
      have hdd : isDigitB d = true := hdig d (by simp)
      have hvd : charVal d < 10 := charVal_lt_ten hdd
      have hsplit : charsToNat ((e :: ds') ++ [d]) = 10 * charsToNat (e :: ds') + charVal d := by
        simp only [charsToNat, foldl_digitStep_append, List.foldl_cons, List.foldl_nil, digitStep]
        omega
      rw [hsplit, natToChars.eq_def]
      have hbig : ¬ (10 * charsToNat (e :: ds') + charVal d < 10) := by omega
      simp only [hbig, dif_neg, not_false_iff]
      have hdiv : (10 * charsToNat (e :: ds') + charVal d) / 10 = charsToNat (e :: ds') := by
        omega
      have hmod : (10 * charsToNat (e :: ds') + charVal d) % 10 = charVal d := by
        omega
      rw [hdiv, hmod, ih hdsne hdige hleade, digitChar_charVal hdd]

/-! ## JavaScript string primitives (char-level models) -/

/-- Leading-whitespace strip, first half of JS `trim()`. -/
def trimLeft (cs : List Char) : List Char := cs.dropWhile isSpaceB

/-- Trailing-whitespace strip, second half of JS `trim()`. -/
def trimRight : List Char → List Char
  | [] => []
  | c :: cs =>
    match trimRight cs with
    | [] => if isSpaceB c then [] else [c]
    | r => c :: r

/-- JS `String.prototype.trim()`. -/
def trimChars (cs : List Char) : List Char := trimRight (trimLeft cs)

/-- JS `s.replace('₹', '')`: removes only the first occurrence. -/
def removeFirstRupee : List Char → List Char
  | [] => []
  | c :: cs => if c = '₹' then cs else c :: removeFirstRupee cs

/-- The `\d*(\.\d*)?` fragment of JS `parseFloat`: reads an unsigned decimal
prefix (needing at least one digit) and ignores any trailing garbage. -/
def parseUnsignedChars (cs : List Char) : Option ℚ :=
  let ip := cs.takeWhile isDigitB
  let r1 := cs.dropWhile isDigitB
  match r1 with
  | '.' :: r2 =>
    let fp := r2.takeWhile isDigitB
    if ip.isEmpty && fp.isEmpty then none
    else some ((charsToNat ip : ℚ) + (charsToNat fp : ℚ) / (10 : ℚ) ^ fp.length)
  | _ => if ip.isEmpty then none else some ((charsToNat ip : ℚ))

/-- JS `parseFloat` on the decimal-notation fragment used by this app
(optional sign, digits, optional fraction; trailing garbage ignored;
`none` models `NaN`). -/
def parseFloatChars (cs : List Char) : Option ℚ :=
  match cs with
  | [] => none
  | c :: rest =>
    if c = '-' then (parseUnsignedChars rest).map (fun q => -q)
    else if c = '+' then parseUnsignedChars rest
    else parseUnsignedChars (c :: rest)

/-- Unsigned decimal literal that must consume the whole input
(the strict grammar of JS `Number(...)`, decimal fragment). -/
def parseNumTail (cs : List Char) : Option ℚ :=
  let ip := cs.takeWhile isDigitB
  let r1 := cs.dropWhile isDigitB
  match r1 with
  | [] => if ip.isEmpty then none else some ((charsToNat ip : ℚ))
  | '.' :: r2 =>
    let fp := r2.takeWhile isDigitB
    let r3 := r2.dropWhile isDigitB
    if r3.isEmpty then
      if ip.isEmpty && fp.isEmpty then none
      else some ((charsToNat ip : ℚ) + (charsToNat fp : ℚ) / (10 : ℚ) ^ fp.length)
    else none
  | _ => none

/-- JS `Number(s)` on the decimal-notation fragment used by this app:
trims, maps the empty string to `0`, otherwise requires the whole string
to be a signed decimal literal; `none` models `NaN`. -/
def jsNumber (s : String) : Option ℚ :=
  match trimChars s.data with
  | [] => some 0
  | c :: rest =>
    if c = '-' then (parseNumTail rest).map (fun q => -q)
    else if c = '+' then parseNumTail rest
    else parseNumTail (c :: rest)

/-! ## Money values: `toFixed(2)` and `parsePrice`/`formatPrice` -/

/-- The integer chosen by JS `toFixed(2)` for a nonnegative argument:
`n` with `n/100` closest to `x`, ties picking the larger `n`. -/
def round2Int (x : ℚ) : ℤ := ⌊x * 100 + 1 / 2⌋

/-- Rounding to 2 decimal places with the tie behaviour of `toFixed(2)`
(ties away from zero). This is the `round(x, 2)` of the Money convention. -/
def roundTo2 (x : ℚ) : ℚ :=
  if x < 0 then -((round2Int (-x) : ℚ) / 100) else (round2Int x : ℚ) / 100

/-- Digits of JS `x.toFixed(2)` for nonnegative `x`. -/
def toFixed2Nonneg (x : ℚ) : List Char :=
  let n := (round2Int x).toNat
  natToChars (n / 100) ++ '.' :: [digitChar (n / 10 % 10), digitChar (n % 10)]

/-- JS `x.toFixed(2)` (sign handled first, per the ECMAScript algorithm). -/
def toFixed2Chars (x : ℚ) : List Char :=
  if x < 0 then '-' :: toFixed2Nonneg (-x) else toFixed2Nonneg x

/-- `formatPrice = (priceNumber) => `₹${priceNumber.toFixed(2)}`` (App.tsx). -/
def formatPriceChars (x : ℚ) : List Char := '₹' :: toFixed2Chars x

/-- String form of `formatPrice`. -/
def formatPrice (x : ℚ) : String := String.mk (formatPriceChars x)

/-- A price cell is either a number or a string (`price: string | number`). -/
inductive PriceVal where
  | num (q : ℚ)
  | str (s : String)
deriving DecidableEq, Repr

/-- `parsePrice` (App.tsx): numbers pass through, strings are parsed by
`parseFloat(priceString.replace('₹', '').trim())`; `none` models `NaN`. -/
def parsePrice : PriceVal → Option ℚ
  | .num q => some q
  | .str s => parseFloatChars (trimChars (removeFirstRupee s.data))

/-- Structural validity of a money string after the `'₹'` sign: a digit
sequence without a superfluous leading zero, a dot, exactly two digits. -/
def validMoneyTail (cs : List Char) : Bool :=
  let ip := cs.takeWhile isDigitB
  let r := cs.dropWhile isDigitB
  (!ip.isEmpty) && ((ip.head? != some '0') || (ip.length == 1)) &&
  (match r with
   | a :: d1 :: d2 :: [] => a == '.' && isDigitB d1 && isDigitB d2
   | _ => false)

/-- A valid currency-prefixed 2-decimal money string per the Money convention. -/
def validMoney (s : String) : Bool :=
  match s.data with
  | c :: rest => c == '₹' && validMoneyTail rest
  | [] => false

/-! ## Round-trip lemmas for the Money convention -/

theorem takeWhile_append_of_all {p : Char → Bool} (ds r : List Char)
    (h : ∀ c ∈ ds, p c = true) (hr : ∀ c, r.head? = some c → p c = false) :
    (ds ++ r).takeWhile p = ds ∧ (ds ++ r).dropWhile p = r := by
  induction ds with
  | nil =>
    simp only [List.nil_append]
    cases r with
    | nil => simp
    | cons c r' =>
      have := hr c rfl
      simp [List.takeWhile_cons, List.dropWhile_cons, this]
  | cons d ds ih =>
    have hd : p d = true := h d (by simp)
    have ⟨h1, h2⟩ := ih (fun c hc => h c (by simp [hc]))
    simp [List.takeWhile_cons, List.dropWhile_cons, hd, h1, h2]

theorem dropWhile_eq_self_of_head {p : Char → Bool} {cs : List Char}
    (h : ∀ c, cs.head? = some c → p c = false) : cs.dropWhile p = cs := by
  cases cs with
  | nil => rfl
  | cons c cs' => simp [List.dropWhile_cons, h c rfl]

theorem trimRight_eq_self {cs : List Char} (h : ∀ c ∈ cs, isSpaceB c = false) :
    trimRight cs = cs := by
  induction cs with
  | nil => rfl
  | cons c cs' ih =>
    have hih := ih (fun x hx => h x (by simp [hx]))
    have hc : isSpaceB c = false := h c (by simp)
    rw [trimRight, hih]
    cases cs' with
    | nil => simp [hc]
    | cons e t => rfl

theorem trimChars_eq_self {cs : List Char} (h : ∀ c ∈ cs, isSpaceB c = false) :
    trimChars cs = cs := by
  have h1 : trimLeft cs = cs := by
    simp only [trimLeft]
    exact dropWhile_eq_self_of_head (fun c hc => h c (by
      cases cs with
      | nil => simp at hc
      | cons a l => simp at hc; simp [hc]))
  simp only [trimChars, h1]
  exact trimRight_eq_self h

theorem round2Int_nonneg {x : ℚ} (hx : 0 ≤ x) : 0 ≤ round2Int x := by
  apply Int.floor_nonneg.mpr
  have : 0 ≤ x * 100 := by positivity
  linarith

theorem mem_toFixed2Nonneg_isDigit_or_dot {x : ℚ} {c : Char}
    (h : c ∈ toFixed2Nonneg x) : isDigitB c = true ∨ c = '.' := by
  simp only [toFixed2Nonneg, List.mem_append, List.mem_cons, List.mem_singleton,
    List.not_mem_nil, or_false] at h
  rcases h with h | h | h | h
  · exact Or.inl (mem_natToChars_isDigitB h)
  · exact Or.inr h
  · subst h; exact Or.inl (isDigitB_digitChar _)
  · subst h; exact Or.inl (isDigitB_digitChar _)

theorem not_space_toFixed2Chars {x : ℚ} : ∀ c ∈ toFixed2Chars x, isSpaceB c = false := by
  intro c hc
  simp only [toFixed2Chars] at hc
  by_cases hx : x < 0
  · simp only [hx, if_pos, List.mem_cons] at hc
    rcases hc with hc | hc
    · subst hc; rfl
    · rcases mem_toFixed2Nonneg_isDigit_or_dot hc with h | h
      · exact not_isSpaceB_of_isDigitB h
      · subst h; rfl
  · simp only [hx, if_neg, not_false_iff] at hc
    rcases mem_toFixed2Nonneg_isDigit_or_dot hc with h | h
    · exact not_isSpaceB_of_isDigitB h
    · subst h; rfl

theorem charsToNat_two_digits (a b : ℕ) (ha : a < 10) (hb : b < 10) :
    charsToNat [digitChar a, digitChar b] = 10 * a + b := by
  simp only [charsToNat, List.foldl_cons, List.foldl_nil, digitStep,
    charVal_digitChar ha, charVal_digitChar hb]
  omega

theorem parseUnsigned_toFixed2Nonneg {x : ℚ} (hx : 0 ≤ x) :
    parseUnsignedChars (toFixed2Nonneg x) = some ((round2Int x : ℚ) / 100) := by
  have hn0 : 0 ≤ round2Int x := round2Int_nonneg hx
  set n : ℕ := (round2Int x).toNat with hn
  have hcast : ((n : ℤ) : ℚ) = ((round2Int x : ℤ) : ℚ) := by
    rw [hn, Int.toNat_of_nonneg hn0]
  have hsplit := @takeWhile_append_of_all isDigitB (natToChars (n / 100))
    ('.' :: [digitChar (n / 10 % 10), digitChar (n % 10)])
    (fun c hc => mem_natToChars_isDigitB hc)
    (fun c hc => by
      simp only [List.head?_cons, Option.some_inj] at hc
      subst hc; rfl)
  simp only [parseUnsignedChars, toFixed2Nonneg]
  rw [hsplit.1, hsplit.2]
  have hne : ¬ (natToChars (n / 100)).isEmpty = true := by
    cases hh : natToChars (n / 100) with
    | nil => exact absurd hh (natToChars_ne_nil _)
    | cons a l => simp [List.isEmpty]
  have hfp := @takeWhile_append_of_all isDigitB [digitChar (n / 10 % 10), digitChar (n % 10)] []
    (fun c hc => by
      simp only [List.mem_cons, List.mem_singleton, List.not_mem_nil, or_false] at hc
      rcases hc with hc | hc <;> (subst hc; exact isDigitB_digitChar _))
    (fun c hc => by simp at hc)
  simp only [List.append_nil] at hfp
  simp only [hfp.1]
  have hipe : (natToChars (n / 100)).isEmpty = false := by
    simp only [Bool.not_eq_true] at hne; exact hne
  simp only [hipe, Bool.false_and, if_neg, Bool.false_eq_true, not_false_iff]
  rw [charsToNat_natToChars, charsToNat_two_digits _ _ (by omega) (by omega)]
  congr 1
  have hmod : 10 * (n / 10 % 10) + n % 10 = n % 100 := by omega
  rw [hmod, List.length_cons, List.length_singleton, ← hcast]
  have h102 : ((10 : ℚ) ^ (1 + 1 : ℕ)) = 100 := by norm_num
  rw [h102]
  have key : n / 100 * 100 + n % 100 = n := by omega
  have keyQ : ((n / 100 : ℕ) : ℚ) * 100 + ((n % 100 : ℕ) : ℚ) = (n : ℚ) := by
    exact_mod_cast congrArg (fun m : ℕ => (m : ℚ)) key
  push_cast
  field_simp
  linarith [keyQ]

theorem digit_ne_minus {c : Char} (h : isDigitB c = true) : c ≠ '-' :=
  fun hc => absurd (hc ▸ h) (by decide)

theorem digit_ne_plus {c : Char} (h : isDigitB c = true) : c ≠ '+' :=
  fun hc => absurd (hc ▸ h) (by decide)

theorem parseFloat_toFixed2 (x : ℚ) :
    parseFloatChars (toFixed2Chars x) = some (roundTo2 x) := by
  by_cases hx : x < 0
  · simp only [toFixed2Chars, if_pos hx]
    have h1 := @parseUnsigned_toFixed2Nonneg (-x) (by linarith)
    simp only [parseFloatChars, h1, if_true, Option.map_some]
    simp [roundTo2, if_pos hx]
  · have hx' : 0 ≤ x := not_lt.mp hx
    simp only [toFixed2Chars, if_neg hx]
    obtain ⟨c, tail, hct⟩ :=
      List.exists_cons_of_ne_nil (natToChars_ne_nil ((round2Int x).toNat / 100))
    have hcd : isDigitB c = true := mem_natToChars_isDigitB (hct ▸ List.mem_cons_self _ _)
    have hshape : toFixed2Nonneg x = c :: (tail ++
        '.' :: [digitChar ((round2Int x).toNat / 10 % 10), digitChar ((round2Int x).toNat % 10)]) := by
      simp only [toFixed2Nonneg]
      rw [hct]
      rfl
    rw [hshape]
    simp only [parseFloatChars, if_neg (digit_ne_minus hcd), if_neg (digit_ne_plus hcd)]
    rw [← hshape, parseUnsigned_toFixed2Nonneg hx']
    simp only [roundTo2, if_neg hx]

/-- Money round trip, parse after format: `parsePrice` applied to a
`formatPrice` output recovers the amount rounded to 2 decimals. -/
theorem parsePrice_formatPrice (x : ℚ) :
    parsePrice (.str (formatPrice x)) = some (roundTo2 x) := by
  show parseFloatChars (trimChars (removeFirstRupee (formatPrice x).data)) = _
  have hdata : (formatPrice x).data = '₹' :: toFixed2Chars x := rfl
  have h1 : removeFirstRupee ('₹' :: toFixed2Chars x) = toFixed2Chars x := by
    simp [removeFirstRupee]
  rw [hdata, h1, trimChars_eq_self not_space_toFixed2Chars]
  exact parseFloat_toFixed2 x

theorem charsToNat_pair (d1 d2 : Char) :
    charsToNat [d1, d2] = 10 * charVal d1 + charVal d2 := by
  simp only [charsToNat, List.foldl_cons, List.foldl_nil, digitStep]
  omega

theorem floor_intCast_add_half (k : ℤ) : ⌊(k : ℚ) + 1 / 2⌋ = k := by
  rw [add_comm, Int.floor_add_int]
  norm_num

/-- Money round trip, format after parse: every structurally valid
currency string is reproduced exactly by `formatPrice ∘ parsePrice`. -/
theorem formatPrice_parsePrice {s : String} (h : validMoney s = true) :
    ∃ q : ℚ, parsePrice (.str s) = some q ∧ formatPrice q = s := by
  rcases hs : s.data with _ | ⟨c, rest⟩
  · rw [validMoney.eq_def, hs] at h
    simp at h
  rw [validMoney.eq_def, hs] at h
  simp only [Bool.and_eq_true, beq_iff_eq] at h
  obtain ⟨hc, hvt⟩ := h
  subst hc
  simp only [validMoneyTail, Bool.and_eq_true] at hvt
  set ip := rest.takeWhile isDigitB with hipdef
  obtain ⟨⟨hip, hlz⟩, hmatch⟩ := hvt
  rcases hr : rest.dropWhile isDigitB with _ | ⟨a, _ | ⟨d1, _ | ⟨d2, _ | ⟨e, t⟩⟩⟩⟩
  · rw [hr] at hmatch; simp at hmatch
  · rw [hr] at hmatch; simp at hmatch
  · rw [hr] at hmatch; simp at hmatch
  case _ =>
    rw [hr] at hmatch
    simp only [Bool.and_eq_true, beq_iff_eq] at hmatch
    obtain ⟨⟨ha, hd1⟩, hd2⟩ := hmatch
    subst ha
    have hrest : ip ++ '.' :: [d1, d2] = rest := by
      rw [hipdef, ← hr]
      exact List.takeWhile_append_dropWhile isDigitB rest
    have hipdig : ∀ x ∈ ip, isDigitB x = true := fun x hx => List.mem_takeWhile_imp hx
    have hipne : ip ≠ [] := by
      intro he
      rw [he] at hip
      simp at hip
    obtain ⟨i0, it, hi0⟩ := List.exists_cons_of_ne_nil hipne
    have hi0d : isDigitB i0 = true := hipdig i0 (by rw [hi0]; simp)
    have hv1 : charVal d1 < 10 := charVal_lt_ten hd1
    have hv2 : charVal d2 < 10 := charVal_lt_ten hd2
    set v1 := charVal d1 with hv1def
    set v2 := charVal d2 with hv2def
    set A := charsToNat ip with hAdef
    set q : ℚ := (A : ℚ) + ((10 * v1 + v2 : ℕ) : ℚ) / 100 with hqdef
    have hsplit := takeWhile_append_of_all ip ('.' :: [d1, d2]) hipdig
      (fun x hx => by
        simp only [List.head?_cons, Option.some_inj] at hx
        subst hx; rfl)
    have hfp := takeWhile_append_of_all [d1, d2] []
      (fun x hx => by
        simp only [List.mem_cons, List.mem_singleton, List.not_mem_nil, or_false] at hx
        rcases hx with hx | hx <;> (subst hx; assumption))
      (fun x hx => by simp at hx)
    simp only [List.append_nil] at hfp
    have hparse : parsePrice (.str s) = some q := by
      show parseFloatChars (trimChars (removeFirstRupee s.data)) = _
      rw [hs]
      have h1 : removeFirstRupee ('₹' :: rest) = rest := by simp [removeFirstRupee]
      rw [h1]
      have h2 : trimChars rest = rest := by
        apply trimChars_eq_self
        intro x hx
        rw [← hrest] at hx
        simp only [List.mem_append, List.mem_cons, List.mem_singleton,
          List.not_mem_nil, or_false] at hx
        rcases hx with hx | hx | hx | hx
        · exact not_isSpaceB_of_isDigitB (hipdig x hx)
        · subst hx; rfl
        · subst hx; exact not_isSpaceB_of_isDigitB hd1
        · subst hx; exact not_isSpaceB_of_isDigitB hd2
      rw [h2, ← hrest, hi0]
      show parseFloatChars (i0 :: (it ++ '.' :: [d1, d2])) = _
      simp only [parseFloatChars, if_neg (digit_ne_minus hi0d), if_neg (digit_ne_plus hi0d)]
      have hback : i0 :: (it ++ '.' :: [d1, d2]) = ip ++ '.' :: [d1, d2] := by
        rw [hi0]
        rfl
      rw [hback]
      simp only [parseUnsignedChars]
      rw [hsplit.1, hsplit.2]
      simp only [hfp.1]
      have hipe : ip.isEmpty = false := by rw [hi0]; rfl
      simp only [hipe, Bool.false_and, Bool.false_eq_true, not_false_iff, if_neg]
      rw [hqdef, ← hAdef, charsToNat_pair, ← hv1def, ← hv2def]
      norm_num
    have hq0 : 0 ≤ q := by
      rw [hqdef]
      positivity
    have hq100 : q * 100 = ((100 * A + (10 * v1 + v2) : ℕ) : ℚ) := by
      rw [hqdef]
      push_cast
      ring
    have hround : round2Int q = ((100 * A + (10 * v1 + v2) : ℕ) : ℤ) := by
      rw [round2Int, hq100]
      have hcc : (((100 * A + (10 * v1 + v2) : ℕ) : ℤ) : ℚ)
          = ((100 * A + (10 * v1 + v2) : ℕ) : ℚ) := by
        push_cast
        ring
      rw [← hcc, floor_intCast_add_half]
    have hn : (round2Int q).toNat = 100 * A + (10 * v1 + v2) := by
      rw [hround]
      exact Int.toNat_natCast _
    have hchars : formatPriceChars q = s.data := by
      simp only [formatPriceChars, toFixed2Chars, if_neg (not_lt.mpr hq0), toFixed2Nonneg, hn]
      have e1 : (100 * A + (10 * v1 + v2)) / 100 = A := by omega
      have e2 : (100 * A + (10 * v1 + v2)) / 10 % 10 = v1 := by omega
      have e3 : (100 * A + (10 * v1 + v2)) % 10 = v2 := by omega
      rw [e1, e2, e3, hv1def, hv2def, digitChar_charVal hd1, digitChar_charVal hd2]
      have hlead : ip.head? = some '0' → ip.length = 1 := by
        intro h0
        rcases Bool.or_eq_true _ _ |>.mp hlz with hl | hl
        · rw [h0] at hl
          simp at hl
        · simpa using hl
      rw [hAdef, natToChars_charsToNat ip hipne hipdig hlead, hs, hrest]
    have hformat : formatPrice q = s := by
      show String.mk (formatPriceChars q) = s
      rw [hchars]
    exact ⟨q, hparse, hformat⟩
  case _ =>
    rw [hr] at hmatch; simp at hmatch

/-! ## Data model -/

/-- The pages of the app (`type Page` in App.tsx). -/
inductive Page where
  | welcome
  | tableNumberEntry
  | chat
  | bill
  | finalConfirmation
deriving DecidableEq, Repr

/-- A catalog item (`MenuItem` in types.ts, fields as used by App.tsx). -/
structure MenuItem where
  id : String
  name : String
  price : PriceVal
  pieces : Option ℕ := none
  description : String := ""
  image : String := ""
  category : String := ""
  tasteProfiles : List String := []
deriving DecidableEq, Repr

/-- An order line: the spread `{ ...menuItem, quantity, customizationNotes }`. -/
structure OrderItem extends MenuItem where
  quantity : ℤ
  customizationNotes : Option String := none
deriving DecidableEq, Repr

/-- One structured request `{ itemName, quantity, customizationNotes? }`. -/
structure OrderRequest where
  itemName : String
  quantity : ℤ
  customizationNotes : Option String := none
deriving DecidableEq, Repr

/-- JS `notes || ''`: absent notes normalize to the empty string. -/
def normNotes : Option String → String
  | some s => s
  | none => ""

/-- The identity of a line: item id together with normalized notes. -/
def lineKey (oi : OrderItem) : String × String := (oi.id, normNotes oi.customizationNotes)

/-- The comparison `oi.id === id && (oi.customizationNotes || '') === notes`. -/
def keyPred (id notes : String) (oi : OrderItem) : Bool :=
  oi.id == id && normNotes oi.customizationNotes == notes

/-- JS `c.toLowerCase()` for the ASCII range. -/
def toLowerChar (c : Char) : Char :=
  if 65 ≤ c.toNat && c.toNat ≤ 90 then Char.ofNat (c.toNat + 32) else c

/-- JS `s.toLowerCase()` (char-level). -/
def lowerChars (cs : List Char) : List Char := cs.map toLowerChar

/-- Catalog lookup
`activeMenuItems.find(item => item.name.toLowerCase() === order.itemName.toLowerCase().trim())`. -/
def resolveItem (menu : List MenuItem) (name : String) : Option MenuItem :=
  menu.find? (fun mi => lowerChars mi.name.data == trimChars (lowerChars name.data))

/-- JS `Array.prototype.findIndex` (as an `Option ℕ`). -/
def findIdxA (p : OrderItem → Bool) : List OrderItem → Option ℕ
  | [] => none
  | x :: xs => if p x then some 0 else (findIdxA p xs).map (· + 1)

/-- `arr.map((oi, index) => index === i ? { ...oi, quantity: f(oi.quantity) } : oi)`. -/
def updateQtyAt : List OrderItem → ℕ → (ℤ → ℤ) → List OrderItem
  | [], _, _ => []
  | x :: xs, 0, f => { x with quantity := f x.quantity } :: xs
  | x :: xs, Nat.succ n, f => x :: updateQtyAt xs n f

/-- `arr.splice(i, 1)` / `arr.filter((_, index) => index !== i)`. -/
def eraseAt : List OrderItem → ℕ → List OrderItem
  | [], _ => []
  | _ :: xs, 0 => xs
  | x :: xs, Nat.succ n => x :: eraseAt xs n

/-- ` (Npc[s])` suffix; JS truthiness makes `pieces: 0` behave as absent. -/
def piecesInfo : Option ℕ → String
  | some p => if p ≠ 0 then " (" ++ toString p ++ " pc" ++ (if 1 < p then "s" else "") ++ ")" else ""
  | none => ""

/-- `getItemNameWithPieces` of App.tsx. -/
def getItemNameWithPieces (oi : OrderItem) : String :=
  oi.name ++ piecesInfo oi.pieces ++
    (match oi.customizationNotes with
     | some nts => if nts ≠ "" then " (Custom: " ++ nts ++ ")" else ""
     | none => "")

/-- The line created by `{ ...menuItem, quantity, customizationNotes: notes }`. -/
def mkLine (mi : MenuItem) (q : ℤ) (notes : String) : OrderItem :=
  { toMenuItem := mi, quantity := q, customizationNotes := some notes }

/-! ## Reconciliation engine — additions (`handleMultiItemOrder`) -/

/-- Effect of one addition request on the working order (the ledger part of
the loop body of `handleMultiItemOrder`). -/
def orderWorkingStep (menu : List MenuItem) (w : List OrderItem) (r : OrderRequest) :
    List OrderItem :=
  match resolveItem menu r.itemName with
  | none => w
  | some mi =>
    let incomingNotes := normNotes r.customizationNotes
    let q := r.quantity
    match findIdxA (keyPred mi.id incomingNotes) w with
    | some i => updateQtyAt w i (· + q)
    | none =>
      if incomingNotes ≠ "" then
        match findIdxA (keyPred mi.id "") w with
        | some j =>
          let w' := eraseAt w j
          match findIdxA (keyPred mi.id incomingNotes) w' with
          | some k => updateQtyAt w' k (· + q)
          | none => w' ++ [mkLine mi q incomingNotes]
        | none => w ++ [mkLine mi q incomingNotes]
      else w ++ [mkLine mi q incomingNotes]

/-- Accumulator of the `handleMultiItemOrder` loop. -/
structure BatchAcc where
  working : List OrderItem
  itemsActuallyProcessed : Bool
  notFoundItems : List String
  actionMessages : List String
deriving Repr

/-- Full loop body of `handleMultiItemOrder` (ledger and messages). -/
def orderStep (menu : List MenuItem) (acc : BatchAcc) (r : OrderRequest) : BatchAcc :=
  match resolveItem menu r.itemName with
  | none => { acc with notFoundItems := acc.notFoundItems ++ [r.itemName] }
  | some mi =>
    let incomingNotes := normNotes r.customizationNotes
    let q := r.quantity
    let nameWithNotes := getItemNameWithPieces (mkLine mi 0 incomingNotes)
    match findIdxA (keyPred mi.id incomingNotes) acc.working with
    | some i =>
      { working := updateQtyAt acc.working i (· + q),
        itemsActuallyProcessed := true,
        notFoundItems := acc.notFoundItems,
        actionMessages := acc.actionMessages ++
          ["Increased quantity of " ++ nameWithNotes ++ " by " ++ toString q ++ "."] }
    | none =>
      if incomingNotes ≠ "" then
        match findIdxA (keyPred mi.id "") acc.working with
        | some j =>
          -- index `j` is in range whenever `findIdxA` succeeds, so the
          -- default line of `getD` is never used
          let plainItem := (acc.working.get? j).getD (mkLine mi 0 "")
          let w' := eraseAt acc.working j
          let w'' :=
            match findIdxA (keyPred mi.id incomingNotes) w' with
            | some k => updateQtyAt w' k (· + q)
            | none => w' ++ [mkLine mi q incomingNotes]
          { working := w'',
            itemsActuallyProcessed := true,
            notFoundItems := acc.notFoundItems,
            actionMessages := acc.actionMessages ++
              ["Changed " ++ getItemNameWithPieces plainItem ++ " (initially qty " ++
               toString plainItem.quantity ++ ") to " ++ toString q ++ " x " ++
               nameWithNotes ++ "."] }
        | none =>
          { working := acc.working ++ [mkLine mi q incomingNotes],
            itemsActuallyProcessed := true,
            notFoundItems := acc.notFoundItems,
            actionMessages := acc.actionMessages ++
              ["Added " ++ toString q ++ " x " ++ nameWithNotes ++ "."] }
      else
        { working := acc.working ++ [mkLine mi q incomingNotes],
          itemsActuallyProcessed := true,
          notFoundItems := acc.notFoundItems,
          actionMessages := acc.actionMessages ++
            ["Added " ++ toString q ++ " x " ++ nameWithNotes ++ "."] }

/-- `handleMultiItemOrder`: returns the new ledger and the messages pushed
through `addSystemMessageToChat`. -/
def handleMultiItemOrder (menu : List MenuItem) (orders : List OrderRequest)
    (prevOrder : List OrderItem) : List OrderItem × List String :=
  let acc := orders.foldl (orderStep menu) ⟨prevOrder, false, [], []⟩
  let sink1 :=
    if acc.notFoundItems.isEmpty then []
    else ["Could not find: " ++ String.intercalate ", " acc.notFoundItems ++ " on the menu."]
  let sink2 :=
    if !acc.itemsActuallyProcessed && acc.notFoundItems.isEmpty && !orders.isEmpty
    then ["I couldn\x27t identify any items from your request to add to the order."]
    else []
  (acc.working, sink1 ++ sink2)

/-! ## Reconciliation engine — removals (`handleMultiItemRemoval`) -/

/-- Effect of one removal request on the working order. -/
def removalWorkingStep (menu : List MenuItem) (w : List OrderItem) (r : OrderRequest) :
    List OrderItem :=
  match resolveItem menu r.itemName with
  | none => w
  | some mi =>
    let notes := normNotes r.customizationNotes
    match findIdxA (keyPred mi.id notes) w with
    | none => w
    | some i =>
      match w.get? i with
      | none => w
      | some itemInOrder =>
        if r.quantity ≥ itemInOrder.quantity then eraseAt w i
        else updateQtyAt w i (· - r.quantity)

/-- Accumulator of the `handleMultiItemRemoval` loop. -/
structure RemovalAcc where
  working : List OrderItem
  itemsActuallyProcessed : Bool
  notFoundOrNotInOrder : List String
  removedItemsMessages : List String
deriving Repr

/-- Full loop body of `handleMultiItemRemoval`. -/
def removalStep (menu : List MenuItem) (acc : RemovalAcc) (r : OrderRequest) : RemovalAcc :=
  match resolveItem menu r.itemName with
  | none =>
    { acc with notFoundOrNotInOrder :=
        acc.notFoundOrNotInOrder ++ ["\x27" ++ r.itemName ++ "\x27 (not on menu)"] }
  | some mi =>
    let notes := normNotes r.customizationNotes
    match findIdxA (keyPred mi.id notes) acc.working with
    | none =>
      let searchName := mi.name ++ (if notes ≠ "" then " (Custom: " ++ notes ++ ")" else "")
      { acc with notFoundOrNotInOrder := acc.notFoundOrNotInOrder ++
          ["\x27" ++ searchName ++ "\x27 (not in current order or exact customization not found)"] }
    | some i =>
      match acc.working.get? i with
      | none => acc
      | some itemInOrder =>
        let nameForMessage := getItemNameWithPieces itemInOrder
        if r.quantity ≥ itemInOrder.quantity then
          { working := eraseAt acc.working i,
            itemsActuallyProcessed := true,
            notFoundOrNotInOrder := acc.notFoundOrNotInOrder,
            removedItemsMessages := acc.removedItemsMessages ++
              ["Removed all " ++ nameForMessage] }
        else
          { working := updateQtyAt acc.working i (· - r.quantity),
            itemsActuallyProcessed := true,
            notFoundOrNotInOrder := acc.notFoundOrNotInOrder,
            removedItemsMessages := acc.removedItemsMessages ++
              ["Reduced " ++ nameForMessage ++ " by " ++ toString r.quantity] }

/-- `handleMultiItemRemoval`: returns the new ledger and the sink messages. -/
def handleMultiItemRemoval (menu : List MenuItem) (removals : List OrderRequest)
    (prevOrder : List OrderItem) : List OrderItem × List String :=
  let acc := removals.foldl (removalStep menu) ⟨prevOrder, false, [], []⟩
  let sink1 :=
    if acc.notFoundOrNotInOrder.isEmpty then []
    else ["Could not process removals for: " ++
      String.intercalate ", " acc.notFoundOrNotInOrder ++ "."]
  let sink2 :=
    if !acc.itemsActuallyProcessed && acc.notFoundOrNotInOrder.isEmpty && !removals.isEmpty
    then ["I couldn\x27t identify any items from your request to remove."]
    else []
  (acc.working, sink1 ++ sink2)

/-- `handleAddItemToOrder`: the single-item add reducer. -/
def handleAddItemToOrder (itemToAdd : MenuItem) (quantity : ℤ)
    (customizationNotes : Option String) (prevOrder : List OrderItem) : List OrderItem :=
  match findIdxA (keyPred itemToAdd.id (normNotes customizationNotes)) prevOrder with
  | some i => updateQtyAt prevOrder i (· + quantity)
  | none => prevOrder ++
      [{ toMenuItem := itemToAdd, quantity := quantity, customizationNotes := customizationNotes }]

/-! ## Pricing and checkout -/

/-- JS addition with NaN propagation. -/
def jsAdd : Option ℚ → Option ℚ → Option ℚ
  | some a, some b => some (a + b)
  | _, _ => none

/-- JS multiplication with NaN propagation. -/
def jsMul : Option ℚ → Option ℚ → Option ℚ
  | some a, some b => some (a * b)
  | _, _ => none

/-- The reduce inside `calculateSubtotal`:
`sum + parsePrice(item.price) * item.quantity`, starting from 0. -/
def subtotalNumJs (items : List OrderItem) : Option ℚ :=
  items.foldl (fun sum it => jsAdd sum (jsMul (parsePrice it.price) (some (it.quantity : ℚ)))) (some 0)

/-- `formatPrice` applied to a possibly-NaN number (`NaN.toFixed(2) = "NaN"`). -/
def formatPriceJs : Option ℚ → String
  | some q => formatPrice q
  | none => "₹NaN"

/-- `calculateSubtotal`: formats the reduced total. -/
def calculateSubtotal (items : List OrderItem) : String := formatPriceJs (subtotalNumJs items)

/-- `subtotalNum = parsePrice(calculateSubtotal(orderItems))` in
`handleCheckoutAndGoToBill`. -/
def checkoutSubtotalNum (items : List OrderItem) : Option ℚ :=
  parsePrice (.str (calculateSubtotal items))

/-- `gstAmountNum = subtotalNum * GST_RATE`. -/
def checkoutGstNum (items : List OrderItem) (rate : ℚ) : Option ℚ :=
  jsMul (checkoutSubtotalNum items) (some rate)

/-- `grandTotalNum = subtotalNum + gstAmountNum`. -/
def checkoutGrandNum (items : List OrderItem) (rate : ℚ) : Option ℚ :=
  jsAdd (checkoutSubtotalNum items) (checkoutGstNum items rate)

/-- The `BillDataType` snapshot of App.tsx. -/
structure BillDataType where
  items : List OrderItem
  subtotal : String
  gstAmount : String
  grandTotal : String
  tableNumber : String
deriving DecidableEq, Repr

/-- The mutable session state of the `App` component that the claims
are about. -/
structure AppState where
  currentPage : Page
  orderItems : List OrderItem
  currentBillData : Option BillDataType
  tableNumber : String
  isSubmitting : Bool
deriving DecidableEq, Repr

/-- `handleCheckoutAndGoToBill`, parameterized by the configured `GST_RATE`
(its value lives in constants.ts, outside the provided sources). -/
def handleCheckoutAndGoToBill (rate : ℚ) (s : AppState) : Bool × AppState :=
  if s.orderItems.isEmpty then (false, s)
  else
    (true,
      { s with
        currentBillData := some
          { items := s.orderItems
            subtotal := formatPriceJs (checkoutSubtotalNum s.orderItems)
            gstAmount := formatPriceJs (checkoutGstNum s.orderItems rate)
            grandTotal := formatPriceJs (checkoutGrandNum s.orderItems rate)
            tableNumber := s.tableNumber }
        currentPage := Page.bill })

/-- The validity test of `handleConfirmOrderAndGoToFinalConfirmation`:
`items.length > 0 && !isNaN(Number(subtotal)) && !isNaN(Number(gstAmount))
&& !isNaN(Number(grandTotal))`. -/
def billIsValid (bd : BillDataType) : Bool :=
  !bd.items.isEmpty && (jsNumber bd.subtotal).isSome &&
  (jsNumber bd.gstAmount).isSome && (jsNumber bd.grandTotal).isSome

/-- Synchronous prefix of `handleConfirmOrderAndGoToFinalConfirmation`:
the guard, the validation, and—on a valid snapshot—entering the submitting
state while initiating exactly one `addDoc` write (counted in the second
component). An invalid or missing snapshot skips the write and falls back
to the confirmation page. -/
def confirmTrigger (s : AppState) (writes : ℕ) : AppState × ℕ :=
  if s.isSubmitting then (s, writes)
  else
    match s.currentBillData with
    | some bd =>
      if billIsValid bd then ({ s with isSubmitting := true }, writes + 1)
      else ({ s with currentPage := Page.finalConfirmation }, writes)
    | none => ({ s with currentPage := Page.finalConfirmation }, writes)

/-- Completion of the in-flight `addDoc`: on success the ledger is cleared
and the flow advances; on failure an alert is surfaced and the state
returns to idle (the `finally` clears `isSubmitting` in both cases). -/
def confirmResolve (ok : Bool) (s : AppState) (writes : ℕ) : AppState × ℕ :=
  if ok then
    ({ s with orderItems := [], currentPage := Page.finalConfirmation, isSubmitting := false },
      writes)
  else ({ s with isSubmitting := false }, writes)

/-! ## Recursive views of the list operations

`addLine`, `removeLine` and `lineAt` are structurally recursive
counterparts of the `findIndex`-plus-`map`/`splice` idioms of the source;
the `_eq_steps` lemmas prove the two presentations equal, so claims can be
settled by induction over the views. -/

/-- First-match increment-or-append, the no-transform effect of one addition. -/
def addLine (mi : MenuItem) (q : ℤ) (notes : String) : List OrderItem → List OrderItem
  | [] => [mkLine mi q notes]
  | x :: xs =>
    if keyPred mi.id notes x then { x with quantity := x.quantity + q } :: xs
    else x :: addLine mi q notes xs

/-- First-match delete-or-decrement, the effect of one removal. -/
def removeLine (id notes : String) (q : ℤ) : List OrderItem → List OrderItem
  | [] => []
  | x :: xs =>
    if keyPred id notes x then
      if q ≥ x.quantity then xs else { x with quantity := x.quantity - q } :: xs
    else x :: removeLine id notes q xs

/-- The first line with a given key, if any. -/
def lineAt (k : String × String) : List OrderItem → Option OrderItem
  | [] => none
  | x :: xs => if lineKey x = k then some x else lineAt k xs

theorem keyPred_iff {id notes : String} {x : OrderItem} :
    keyPred id notes x = true ↔ lineKey x = (id, notes) := by
  simp [keyPred, lineKey, Prod.ext_iff]

theorem lineKey_set_quantity (x : OrderItem) (v : ℤ) :
    lineKey { x with quantity := v } = lineKey x := rfl

theorem lineKey_mkLine (mi : MenuItem) (q : ℤ) (notes : String) :
    lineKey (mkLine mi q notes) = (mi.id, notes) := rfl

theorem addLine_eq_steps (mi : MenuItem) (q : ℤ) (notes : String) (w : List OrderItem) :
    (match findIdxA (keyPred mi.id notes) w with
     | some i => updateQtyAt w i (· + q)
     | none => w ++ [mkLine mi q notes]) = addLine mi q notes w := by
  induction w with
  | nil => rfl
  | cons x xs ih =>
    by_cases hp : keyPred mi.id notes x
    · simp [findIdxA, hp, addLine, updateQtyAt]
    · simp only [findIdxA, hp, Bool.false_eq_true, if_neg, not_false_iff,
        addLine]
      cases h : findIdxA (keyPred mi.id notes) xs with
      | none =>
        have ih' : xs ++ [mkLine mi q notes] = addLine mi q notes xs := by
          rw [← ih, h]
        exact congrArg (x :: ·) ih'
      | some i =>
        have ih' : updateQtyAt xs i (· + q) = addLine mi q notes xs := by
          rw [← ih, h]
        exact congrArg (x :: ·) ih'

theorem removeLine_eq_steps (id notes : String) (q : ℤ) (w : List OrderItem) :
    (match findIdxA (keyPred id notes) w with
     | none => w
     | some i =>
       match w.get? i with
       | none => w
       | some itm => if q ≥ itm.quantity then eraseAt w i else updateQtyAt w i (· - q)) =
    removeLine id notes q w := by
  induction w with
  | nil => rfl
  | cons x xs ih =>
    by_cases hp : keyPred id notes x
    · simp only [findIdxA, hp, if_pos]
      show (match (x :: xs).get? 0 with
            | none => x :: xs
            | some itm => if q ≥ itm.quantity then eraseAt (x :: xs) 0
                          else updateQtyAt (x :: xs) 0 (· - q)) = _
      simp [removeLine, hp, eraseAt, updateQtyAt]
    · simp only [findIdxA, hp, Bool.false_eq_true, if_neg, not_false_iff,
        removeLine]
      cases h : findIdxA (keyPred id notes) xs with
      | none =>
        have ih' : xs = removeLine id notes q xs := by
          rw [← ih, h]
        exact congrArg (x :: ·) ih'
      | some i =>
        have ih' : (match xs.get? i with
            | none => xs
            | some itm => if q ≥ itm.quantity then eraseAt xs i
                          else updateQtyAt xs i (· - q)) = removeLine id notes q xs := by
          rw [← ih, h]
        show (match xs.get? i with
              | none => x :: xs
              | some itm => if q ≥ itm.quantity then eraseAt (x :: xs) (i + 1)
                            else updateQtyAt (x :: xs) (i + 1) (· - q)) =
          x :: removeLine id notes q xs
        cases hg : xs.get? i with
        | none =>
          rw [hg] at ih'
          have ih2 : xs = removeLine id notes q xs := ih'
          exact congrArg (x :: ·) ih2
        | some itm =>
          rw [hg] at ih'
          have ih2 : (if q ≥ itm.quantity then eraseAt xs i else updateQtyAt xs i (· - q)) =
              removeLine id notes q xs := ih'
          show (if q ≥ itm.quantity then eraseAt (x :: xs) (i + 1)
                else updateQtyAt (x :: xs) (i + 1) (· - q)) = x :: removeLine id notes q xs
          by_cases hq : q ≥ itm.quantity
          · rw [if_pos hq] at ih2
            rw [if_pos hq]
            exact congrArg (x :: ·) ih2
          · rw [if_neg hq] at ih2
            rw [if_neg hq]
            exact congrArg (x :: ·) ih2

/-! ## Transform-rule predicate and step views -/

/-- Whether one addition request triggers the customization-transform rule
against the current working order: notes non-empty, no exact match, and a
plain line with the same id present. -/
def stepTriggersTransform (menu : List MenuItem) (w : List OrderItem) (r : OrderRequest) : Bool :=
  match resolveItem menu r.itemName with
  | none => false
  | some mi =>
    (normNotes r.customizationNotes != "") &&
    (findIdxA (keyPred mi.id (normNotes r.customizationNotes)) w).isNone &&
    (findIdxA (keyPred mi.id "") w).isSome

/-- No request of the batch triggers the transform rule while the batch runs. -/
def transformFreeB (menu : List MenuItem) : List OrderRequest → List OrderItem → Bool
  | [], _ => true
  | r :: rs, w =>
    !stepTriggersTransform menu w r && transformFreeB menu rs (orderWorkingStep menu w r)

theorem orderWorkingStep_view {menu : List MenuItem} {w : List OrderItem} {r : OrderRequest}
    {mi : MenuItem} (hres : resolveItem menu r.itemName = some mi)
    (hnt : stepTriggersTransform menu w r = false) :
    orderWorkingStep menu w r = addLine mi r.quantity (normNotes r.customizationNotes) w := by
  unfold orderWorkingStep
  rw [hres]
  dsimp only
  cases hf : findIdxA (keyPred mi.id (normNotes r.customizationNotes)) w with
  | some i =>
    have he := addLine_eq_steps mi r.quantity (normNotes r.customizationNotes) w
    rw [hf] at he
    exact he
  | none =>
    have he := addLine_eq_steps mi r.quantity (normNotes r.customizationNotes) w
    rw [hf] at he
    by_cases hn : normNotes r.customizationNotes ≠ ""
    · rw [if_pos hn]
      have hns : (normNotes r.customizationNotes != "") = true := by
        simp [bne_iff_ne, hn]
      rw [stepTriggersTransform, hres] at hnt
      dsimp only at hnt
      rw [hf] at hnt
      have hp : findIdxA (keyPred mi.id "") w = none := by
        cases hq : findIdxA (keyPred mi.id "") w with
        | none => rfl
        | some j =>
          rw [hq] at hnt
          simp [hns] at hnt
      rw [hp]
      exact he
    · rw [if_neg hn]
      exact he

theorem removalWorkingStep_view {menu : List MenuItem} {r : OrderRequest}
    {mi : MenuItem} (w : List OrderItem) (hres : resolveItem menu r.itemName = some mi) :
    removalWorkingStep menu w r =
      removeLine mi.id (normNotes r.customizationNotes) r.quantity w := by
  unfold removalWorkingStep
  rw [hres]
  dsimp only
  exact removeLine_eq_steps mi.id (normNotes r.customizationNotes) r.quantity w

/-! ## Working-order projections of the message-producing folds -/

theorem orderStep_working (menu : List MenuItem) (acc : BatchAcc) (r : OrderRequest) :
    (orderStep menu acc r).working = orderWorkingStep menu acc.working r := by
  unfold orderStep orderWorkingStep
  cases hres : resolveItem menu r.itemName with
  | none => rfl
  | some mi =>
    dsimp only
    cases hf : findIdxA (keyPred mi.id (normNotes r.customizationNotes)) acc.working with
    | some i => rfl
    | none =>
      by_cases hn : normNotes r.customizationNotes ≠ ""
      · rw [if_pos hn, if_pos hn]
        cases hp : findIdxA (keyPred mi.id "") acc.working with
        | some j => rfl
        | none => rfl
      · rw [if_neg hn, if_neg hn]

theorem foldl_orderStep_working (menu : List MenuItem) (orders : List OrderRequest)
    (acc : BatchAcc) :
    (orders.foldl (orderStep menu) acc).working =
      orders.foldl (orderWorkingStep menu) acc.working := by
  induction orders generalizing acc with
  | nil => rfl
  | cons r rs ih =>
    simp only [List.foldl_cons, ih, orderStep_working]

theorem handleMultiItemOrder_fst (menu : List MenuItem) (orders : List OrderRequest)
    (prev : List OrderItem) :
    (handleMultiItemOrder menu orders prev).1 =
      orders.foldl (orderWorkingStep menu) prev := by
  simp only [handleMultiItemOrder]
  exact foldl_orderStep_working menu orders ⟨prev, false, [], []⟩

theorem removalStep_working (menu : List MenuItem) (acc : RemovalAcc) (r : OrderRequest) :
    (removalStep menu acc r).working = removalWorkingStep menu acc.working r := by
  unfold removalStep removalWorkingStep
  cases hres : resolveItem menu r.itemName with
  | none => rfl
  | some mi =>
    dsimp only
    cases hf : findIdxA (keyPred mi.id (normNotes r.customizationNotes)) acc.working with
    | none => rfl
    | some i =>
      dsimp only
      cases hg : acc.working.get? i with
      | none => rfl
      | some itm =>
        dsimp only
        by_cases hq : r.quantity ≥ itm.quantity
        · rw [if_pos hq, if_pos hq]
        · rw [if_neg hq, if_neg hq]

theorem foldl_removalStep_working (menu : List MenuItem) (removals : List OrderRequest)
    (acc : RemovalAcc) :
    (removals.foldl (removalStep menu) acc).working =
      removals.foldl (removalWorkingStep menu) acc.working := by
  induction removals generalizing acc with
  | nil => rfl
  | cons r rs ih =>
    simp only [List.foldl_cons, ih, removalStep_working]

theorem handleMultiItemRemoval_fst (menu : List MenuItem) (removals : List OrderRequest)
    (prev : List OrderItem) :
    (handleMultiItemRemoval menu removals prev).1 =
      removals.foldl (removalWorkingStep menu) prev := by
  simp only [handleMultiItemRemoval]
  exact foldl_removalStep_working menu removals ⟨prev, false, [], []⟩

/-! ## Key uniqueness (`keysNodup`) -/

/-- The Ledger invariant: no two lines share `(id, normalized notes)`. -/
def keysNodup (w : List OrderItem) : Prop := (w.map lineKey).Nodup

instance keysNodupDecidable (w : List OrderItem) : Decidable (keysNodup w) :=
  inferInstanceAs (Decidable ((w.map lineKey).Nodup))

theorem map_lineKey_updateQtyAt (w : List OrderItem) (i : ℕ) (f : ℤ → ℤ) :
    (updateQtyAt w i f).map lineKey = w.map lineKey := by
  induction w generalizing i with
  | nil => rfl
  | cons x xs ih =>
    cases i with
    | zero => simp [updateQtyAt, lineKey_set_quantity]
    | succ n => simp [updateQtyAt, ih]

theorem eraseAt_sublist (w : List OrderItem) (i : ℕ) : List.Sublist (eraseAt w i) w := by
  induction w generalizing i with
  | nil => simp [eraseAt]
  | cons x xs ih =>
    cases i with
    | zero => exact (List.Sublist.refl xs).cons x
    | succ n => exact (ih n).cons₂ x

theorem findIdxA_eq_none_iff {p : OrderItem → Bool} {w : List OrderItem} :
    findIdxA p w = none ↔ ∀ x ∈ w, p x = false := by
  induction w with
  | nil => simp [findIdxA]
  | cons x xs ih =>
    by_cases hp : p x
    · simp [findIdxA, hp]
    · simp only [findIdxA, hp, Bool.false_eq_true, if_neg, not_false_iff,
        Option.map_eq_none', ih, List.mem_cons]
      constructor
      · intro h y hy
        rcases hy with hy | hy
        · subst hy
          exact Bool.not_eq_true _ |>.mp hp
        · exact h y hy
      · intro h y hy
        exact h y (Or.inr hy)

theorem key_not_mem_of_findIdxA_none {id notes : String} {w : List OrderItem}
    (h : findIdxA (keyPred id notes) w = none) : (id, notes) ∉ w.map lineKey := by
  intro hmem
  obtain ⟨x, hx, hkey⟩ := List.mem_map.mp hmem
  have hfalse := findIdxA_eq_none_iff.mp h x hx
  have htrue := keyPred_iff.mpr hkey
  rw [htrue] at hfalse
  simp at hfalse

theorem keysNodup_updateQtyAt {w : List OrderItem} (h : keysNodup w) (i : ℕ) (f : ℤ → ℤ) :
    keysNodup (updateQtyAt w i f) := by
  unfold keysNodup at *
  rw [map_lineKey_updateQtyAt]
  exact h

theorem keysNodup_eraseAt {w : List OrderItem} (h : keysNodup w) (i : ℕ) :
    keysNodup (eraseAt w i) :=
  h.sublist ((eraseAt_sublist w i).map lineKey)

theorem keysNodup_append_fresh (x : OrderItem) {w : List OrderItem} (h : keysNodup w)
    (hfresh : lineKey x ∉ w.map lineKey) : keysNodup (w ++ [x]) := by
  unfold keysNodup at *
  rw [List.map_append]
  refine h.append (List.nodup_singleton _) ?_
  intro a ha hb
  simp only [List.map_cons, List.map_nil, List.mem_singleton] at hb
  subst hb
  exact hfresh ha

theorem keysNodup_addLine (mi : MenuItem) (q : ℤ) (notes : String) {w : List OrderItem}
    (h : keysNodup w) : keysNodup (addLine mi q notes w) := by
  rw [← addLine_eq_steps]
  cases hf : findIdxA (keyPred mi.id notes) w with
  | some i => exact keysNodup_updateQtyAt h i _
  | none =>
    refine keysNodup_append_fresh _ h ?_
    rw [lineKey_mkLine]
    exact key_not_mem_of_findIdxA_none hf

theorem keysNodup_orderWorkingStep (menu : List MenuItem) (r : OrderRequest)
    {w : List OrderItem} (h : keysNodup w) : keysNodup (orderWorkingStep menu w r) := by
  unfold orderWorkingStep
  cases hres : resolveItem menu r.itemName with
  | none => exact h
  | some mi =>
    dsimp only
    cases hf : findIdxA (keyPred mi.id (normNotes r.customizationNotes)) w with
    | some i => exact keysNodup_updateQtyAt h i _
    | none =>
      by_cases hn : normNotes r.customizationNotes ≠ ""
      · rw [if_pos hn]
        cases hp : findIdxA (keyPred mi.id "") w with
        | some j =>
          dsimp only
          cases hk : findIdxA (keyPred mi.id (normNotes r.customizationNotes)) (eraseAt w j) with
          | some k => exact keysNodup_updateQtyAt (keysNodup_eraseAt h j) k _
          | none =>
            refine keysNodup_append_fresh _ (keysNodup_eraseAt h j) ?_
            rw [lineKey_mkLine]
            exact key_not_mem_of_findIdxA_none hk
        | none =>
          refine keysNodup_append_fresh _ h ?_
          rw [lineKey_mkLine]
          exact key_not_mem_of_findIdxA_none hf
      · rw [if_neg hn]
        refine keysNodup_append_fresh _ h ?_
        rw [lineKey_mkLine]
        exact key_not_mem_of_findIdxA_none hf

theorem map_lineKey_removeLine_sublist (id notes : String) (q : ℤ) (w : List OrderItem) :
    List.Sublist ((removeLine id notes q w).map lineKey) (w.map lineKey) := by
  induction w with
  | nil => simp [removeLine]
  | cons x xs ih =>
    by_cases hp : keyPred id notes x
    · simp only [removeLine, hp, if_pos]
      by_cases hq : q ≥ x.quantity
      · rw [if_pos hq]
        exact (List.Sublist.refl _).cons _
      · rw [if_neg hq]
        simp only [List.map_cons, lineKey_set_quantity]
        exact (List.Sublist.refl _).cons₂ _
    · simp only [removeLine, hp, Bool.false_eq_true, if_neg, not_false_iff, List.map_cons]
      exact ih.cons₂ _

theorem keysNodup_removeLine (id notes : String) (q : ℤ) {w : List OrderItem}
    (h : keysNodup w) : keysNodup (removeLine id notes q w) :=
  h.sublist (map_lineKey_removeLine_sublist id notes q w)

theorem keysNodup_removalWorkingStep (menu : List MenuItem) (r : OrderRequest)
    {w : List OrderItem} (h : keysNodup w) : keysNodup (removalWorkingStep menu w r) := by
  cases hres : resolveItem menu r.itemName with
  | none =>
    unfold removalWorkingStep
    rw [hres]
    exact h
  | some mi =>
    rw [removalWorkingStep_view w hres]
    exact keysNodup_removeLine _ _ _ h

theorem keysNodup_foldl_orderWorkingStep (menu : List MenuItem) (orders : List OrderRequest)
    {prev : List OrderItem} (h : keysNodup prev) :
    keysNodup (orders.foldl (orderWorkingStep menu) prev) := by
  induction orders generalizing prev with
  | nil => exact h
  | cons r rs ih =>
    rw [List.foldl_cons]
    exact ih (keysNodup_orderWorkingStep menu r h)

theorem keysNodup_foldl_removalWorkingStep (menu : List MenuItem) (removals : List OrderRequest)
    {prev : List OrderItem} (h : keysNodup prev) :
    keysNodup (removals.foldl (removalWorkingStep menu) prev) := by
  induction removals generalizing prev with
  | nil => exact h
  | cons r rs ih =>
    rw [List.foldl_cons]
    exact ih (keysNodup_removalWorkingStep menu r h)

theorem keysNodup_handleAddItemToOrder (itemToAdd : MenuItem) (q : ℤ)
    (notes : Option String) {prev : List OrderItem} (h : keysNodup prev) :
    keysNodup (handleAddItemToOrder itemToAdd q notes prev) := by
  unfold handleAddItemToOrder
  cases hf : findIdxA (keyPred itemToAdd.id (normNotes notes)) prev with
  | some i => exact keysNodup_updateQtyAt h i _
  | none =>
    refine keysNodup_append_fresh _ h ?_
    show (itemToAdd.id, normNotes notes) ∉ prev.map lineKey
    exact key_not_mem_of_findIdxA_none hf

/-! ## Single-key ghost semantics

For a fixed key, the batch folds act on the (at most one, by `keysNodup`)
line with that key; `add1K`/`rem1K` describe that action on an
`Option OrderItem`. -/

/-- Effect at the request's own key of one no-transform addition. -/
def add1K (L0 : Option OrderItem) (p : MenuItem × ℤ × String) : Option OrderItem :=
  match L0 with
  | some l => some { l with quantity := l.quantity + p.2.1 }
  | none => some (mkLine p.1 p.2.1 p.2.2)

def addFoldK (ps : List (MenuItem × ℤ × String)) (L0 : Option OrderItem) : Option OrderItem :=
  ps.foldl add1K L0

/-- Effect at the request's own key of one removal. -/
def rem1K (L0 : Option OrderItem) (p : MenuItem × ℤ × String) : Option OrderItem :=
  match L0 with
  | none => none
  | some l => if p.2.1 ≥ l.quantity then none else some { l with quantity := l.quantity - p.2.1 }

def remFoldK (ps : List (MenuItem × ℤ × String)) (L0 : Option OrderItem) : Option OrderItem :=
  ps.foldl rem1K L0

/-- The requests of a batch that resolve to a given key, with their
resolved catalog items and quantities. -/
def projAdds (menu : List MenuItem) (rs : List OrderRequest) (k : String × String) :
    List (MenuItem × ℤ × String) :=
  rs.filterMap (fun r =>
    match resolveItem menu r.itemName with
    | none => none
    | some mi =>
      if (mi.id, normNotes r.customizationNotes) = k then
        some (mi, r.quantity, normNotes r.customizationNotes)
      else none)

def sumQK (ps : List (MenuItem × ℤ × String)) : ℤ := (ps.map (fun p => p.2.1)).sum

theorem addFoldK_some (ps : List (MenuItem × ℤ × String)) (l : OrderItem) :
    addFoldK ps (some l) = some { l with quantity := l.quantity + sumQK ps } := by
  induction ps generalizing l with
  | nil =>
    show some l = _
    have : l.quantity + sumQK [] = l.quantity := by simp [sumQK]
    rw [this]
  | cons p ps ih =>
    show addFoldK ps (some { l with quantity := l.quantity + p.2.1 }) = _
    rw [ih]
    have : l.quantity + p.2.1 + sumQK ps = l.quantity + sumQK (p :: ps) := by
      simp [sumQK]
      ring
    rw [this]

theorem addFoldK_none_of_ne_nil {ps : List (MenuItem × ℤ × String)} (h : ps ≠ []) :
    ∃ l, addFoldK ps none = some l ∧ l.quantity = sumQK ps := by
  cases ps with
  | nil => exact absurd rfl h
  | cons p ps =>
    refine ⟨{ mkLine p.1 p.2.1 p.2.2 with quantity := p.2.1 + sumQK ps }, ?_, ?_⟩
    · show addFoldK ps (some (mkLine p.1 p.2.1 p.2.2)) = _
      rw [addFoldK_some]
      rfl
    · show p.2.1 + sumQK ps = sumQK (p :: ps)
      simp [sumQK]

theorem remFoldK_none (ps : List (MenuItem × ℤ × String)) : remFoldK ps none = none := by
  induction ps with
  | nil => rfl
  | cons p ps ih => exact ih

theorem sumQK_nonneg {ps : List (MenuItem × ℤ × String)} (h : ∀ p ∈ ps, 0 < p.2.1) :
    0 ≤ sumQK ps := by
  induction ps with
  | nil => simp [sumQK]
  | cons p ps ih =>
    have h0 : 0 < p.2.1 := h p (by simp)
    have hr := ih (fun x hx => h x (by simp [hx]))
    simp only [sumQK, List.map_cons, List.sum_cons] at hr ⊢
    omega

theorem sumQK_pos {ps : List (MenuItem × ℤ × String)} (h : ∀ p ∈ ps, 0 < p.2.1)
    (hne : ps ≠ []) : 0 < sumQK ps := by
  cases ps with
  | nil => exact absurd rfl hne
  | cons p ps =>
    have h0 : 0 < p.2.1 := h p (by simp)
    have hrest : 0 ≤ sumQK ps := sumQK_nonneg (fun x hx => h x (by simp [hx]))
    simp only [sumQK, List.map_cons, List.sum_cons]
    simp only [sumQK] at hrest
    omega

theorem remFoldK_some_of_lt {ps : List (MenuItem × ℤ × String)} {l : OrderItem}
    (hpos : ∀ p ∈ ps, 0 < p.2.1) (hlt : sumQK ps < l.quantity) :
    remFoldK ps (some l) = some { l with quantity := l.quantity - sumQK ps } := by
  induction ps generalizing l with
  | nil =>
    show some l = _
    have : l.quantity - sumQK [] = l.quantity := by simp [sumQK]
    rw [this]
  | cons p ps ih =>
    have hp0 : 0 < p.2.1 := hpos p (by simp)
    have hsum : sumQK (p :: ps) = p.2.1 + sumQK ps := by simp [sumQK]
    have hrest : 0 ≤ sumQK ps := by
      by_cases hne : ps = []
      · simp [hne, sumQK]
      · exact le_of_lt (sumQK_pos (fun x hx => hpos x (by simp [hx])) hne)
    have hnot : ¬ (p.2.1 ≥ l.quantity) := by omega
    show remFoldK ps (rem1K (some l) p) = _
    rw [show rem1K (some l) p = some { l with quantity := l.quantity - p.2.1 } from by
      simp [rem1K, hnot]]
    rw [ih (fun x hx => hpos x (by simp [hx])) (by show sumQK ps < l.quantity - p.2.1; omega)]
    have : l.quantity - p.2.1 - sumQK ps = l.quantity - sumQK (p :: ps) := by
      rw [hsum]; ring
    rw [this]

theorem remFoldK_some_of_eq {ps : List (MenuItem × ℤ × String)} {l : OrderItem}
    (hne : ps ≠ []) (hpos : ∀ p ∈ ps, 0 < p.2.1) (heq : l.quantity = sumQK ps) :
    remFoldK ps (some l) = none := by
  induction ps generalizing l with
  | nil => exact absurd rfl hne
  | cons p ps ih =>
    have hsum : sumQK (p :: ps) = p.2.1 + sumQK ps := by simp [sumQK]
    by_cases hps : ps = []
    · subst hps
      have : p.2.1 ≥ l.quantity := by
        rw [heq, hsum]
        simp [sumQK]
      show remFoldK [] (rem1K (some l) p) = none
      rw [show rem1K (some l) p = none from by simp [rem1K, this]]
      rfl
    · have hsp : 0 < sumQK ps := sumQK_pos (fun x hx => hpos x (by simp [hx])) hps
      have hnot : ¬ (p.2.1 ≥ l.quantity) := by
        have hp0 : 0 < p.2.1 := hpos p (by simp)
        rw [heq, hsum]
        omega
      show remFoldK ps (rem1K (some l) p) = none
      rw [show rem1K (some l) p = some { l with quantity := l.quantity - p.2.1 } from by
        simp [rem1K, hnot]]
      exact ih hps (fun x hx => hpos x (by simp [hx]))
        (by show l.quantity - p.2.1 = sumQK ps; rw [heq, hsum]; ring)

theorem remFold_addFold (ps : List (MenuItem × ℤ × String)) (L0 : Option OrderItem)
    (hpos : ∀ p ∈ ps, 0 < p.2.1) (hq : ∀ l, L0 = some l → 0 < l.quantity) :
    remFoldK ps (addFoldK ps L0) = L0 := by
  cases hps : ps with
  | nil =>
    cases L0 <;> rfl
  | cons p ps' =>
    cases L0 with
    | some l =>
      rw [addFoldK_some]
      have hql : 0 < l.quantity := hq l rfl
      have hlt : sumQK (p :: ps') <
          ({ l with quantity := l.quantity + sumQK (p :: ps') } : OrderItem).quantity := by
        show sumQK (p :: ps') < l.quantity + sumQK (p :: ps')
        omega
      rw [remFoldK_some_of_lt (hps ▸ hpos) hlt]
      have : l.quantity + sumQK (p :: ps') - sumQK (p :: ps') = l.quantity := by ring
      show some { l with quantity := l.quantity + sumQK (p :: ps') - sumQK (p :: ps') } = some l
      rw [this]
    | none =>
      obtain ⟨l, hl, hql⟩ := @addFoldK_none_of_ne_nil (p :: ps') (by simp)
      rw [hl, remFoldK_some_of_eq (by simp) (hps ▸ hpos) hql]

/-! ## `lineAt` projections -/

theorem lineAt_eq_none_of_not_mem {k : String × String} {w : List OrderItem}
    (h : k ∉ w.map lineKey) : lineAt k w = none := by
  induction w with
  | nil => rfl
  | cons x xs ih =>
    simp only [List.map_cons, List.mem_cons, not_or] at h
    show (if lineKey x = k then some x else lineAt k xs) = none
    rw [if_neg (fun hc => h.1 hc.symm)]
    exact ih h.2

theorem lineAt_mem {k : String × String} {w : List OrderItem} {x : OrderItem}
    (h : lineAt k w = some x) : x ∈ w ∧ lineKey x = k := by
  induction w with
  | nil => exact absurd h (by simp [lineAt])
  | cons y ys ih =>
    by_cases hy : lineKey y = k
    · have : some y = some x := by
        rw [← h]
        show some y = if lineKey y = k then some y else lineAt k ys
        rw [if_pos hy]
      obtain rfl : y = x := Option.some_inj.mp this
      exact ⟨by simp, hy⟩
    · have h' : lineAt k ys = some x := by
        rw [← h]
        show lineAt k ys = if lineKey y = k then some y else lineAt k ys
        rw [if_neg hy]
      obtain ⟨hmem, hkey⟩ := ih h'
      exact ⟨by simp [hmem], hkey⟩

theorem mem_lineAt {w : List OrderItem} (hnd : keysNodup w) {x : OrderItem} (hx : x ∈ w) :
    lineAt (lineKey x) w = some x := by
  induction w with
  | nil => exact absurd hx (by simp)
  | cons y ys ih =>
    have hnd' := hnd
    unfold keysNodup at hnd'
    rw [List.map_cons, List.nodup_cons] at hnd'
    obtain ⟨hy, hys⟩ := hnd'
    rcases List.mem_cons.mp hx with rfl | hmem
    · show (if lineKey x = lineKey x then some x else lineAt (lineKey x) ys) = some x
      rw [if_pos rfl]
    · show (if lineKey y = lineKey x then some y else lineAt (lineKey x) ys) = some x
      have hne : lineKey y ≠ lineKey x := by
        intro he
        exact hy (he ▸ List.mem_map_of_mem lineKey hmem)
      rw [if_neg hne]
      exact ih hys hmem

theorem lineAt_cons (k : String × String) (x : OrderItem) (xs : List OrderItem) :
    lineAt k (x :: xs) = if lineKey x = k then some x else lineAt k xs := rfl

theorem addLine_cons_pos {mi : MenuItem} {q : ℤ} {notes : String} {x : OrderItem}
    {xs : List OrderItem} (hp : keyPred mi.id notes x = true) :
    addLine mi q notes (x :: xs) = { x with quantity := x.quantity + q } :: xs := by
  simp [addLine, hp]

theorem addLine_cons_neg {mi : MenuItem} {q : ℤ} {notes : String} {x : OrderItem}
    {xs : List OrderItem} (hp : keyPred mi.id notes x = false) :
    addLine mi q notes (x :: xs) = x :: addLine mi q notes xs := by
  simp [addLine, hp]

theorem removeLine_cons_del {id notes : String} {q : ℤ} {x : OrderItem}
    {xs : List OrderItem} (hp : keyPred id notes x = true) (hq : q ≥ x.quantity) :
    removeLine id notes q (x :: xs) = xs := by
  simp [removeLine, hp, hq]

theorem removeLine_cons_dec {id notes : String} {q : ℤ} {x : OrderItem}
    {xs : List OrderItem} (hp : keyPred id notes x = true) (hq : ¬ q ≥ x.quantity) :
    removeLine id notes q (x :: xs) = { x with quantity := x.quantity - q } :: xs := by
  simp [removeLine, hp, hq]

theorem removeLine_cons_neg {id notes : String} {q : ℤ} {x : OrderItem}
    {xs : List OrderItem} (hp : keyPred id notes x = false) :
    removeLine id notes q (x :: xs) = x :: removeLine id notes q xs := by
  simp [removeLine, hp]

theorem lineAt_addLine (mi : MenuItem) (q : ℤ) (notes : String) (w : List OrderItem)
    (k : String × String) :
    lineAt k (addLine mi q notes w) =
      if k = (mi.id, notes) then
        (match lineAt k w with
         | some l => some { l with quantity := l.quantity + q }
         | none => some (mkLine mi q notes))
      else lineAt k w := by
  induction w with
  | nil =>
    show lineAt k [mkLine mi q notes] = _
    rw [lineAt_cons, lineKey_mkLine]
    by_cases hk : k = (mi.id, notes)
    · rw [if_pos hk.symm, if_pos hk]
      rfl
    · rw [if_neg (fun hc => hk hc.symm), if_neg hk]
  | cons x xs ih =>
    by_cases hp : keyPred mi.id notes x
    · have hkx : lineKey x = (mi.id, notes) := keyPred_iff.mp hp
      rw [addLine_cons_pos hp, lineAt_cons, lineAt_cons, lineKey_set_quantity, hkx]
      by_cases hk : k = (mi.id, notes)
      · rw [if_pos hk.symm, if_pos hk, if_pos hk.symm]
      · rw [if_neg (fun hc => hk hc.symm), if_neg hk, if_neg (fun hc => hk hc.symm)]
    · have hp' : keyPred mi.id notes x = false := by
        simpa using hp
      have hkx : lineKey x ≠ (mi.id, notes) := fun he => by
        rw [keyPred_iff.mpr he] at hp'
        simp at hp'
      rw [addLine_cons_neg hp', lineAt_cons, lineAt_cons, ih]
      by_cases hxk : lineKey x = k
      · have hk : ¬ k = (mi.id, notes) := fun he => hkx (hxk.trans he)
        rw [if_pos hxk, if_neg hk, if_pos hxk]
      · rw [if_neg hxk, if_neg hxk]

theorem lineAt_removeLine (id notes : String) (q : ℤ) {w : List OrderItem}
    (hnd : keysNodup w) (k : String × String) :
    lineAt k (removeLine id notes q w) =
      if k = (id, notes) then
        (match lineAt k w with
         | none => none
         | some l => if q ≥ l.quantity then none else some { l with quantity := l.quantity - q })
      else lineAt k w := by
  induction w with
  | nil =>
    by_cases hk : k = (id, notes) <;> simp [removeLine, lineAt, hk]
  | cons x xs ih =>
    have hnd' := hnd
    unfold keysNodup at hnd'
    rw [List.map_cons, List.nodup_cons] at hnd'
    obtain ⟨hxnotin, hxs⟩ := hnd'
    by_cases hp : keyPred id notes x
    · have hkx : lineKey x = (id, notes) := keyPred_iff.mp hp
      have hxsnone : lineAt (id, notes) xs = none :=
        lineAt_eq_none_of_not_mem (hkx ▸ hxnotin)
      by_cases hq : q ≥ x.quantity
      · rw [removeLine_cons_del hp hq, lineAt_cons, hkx]
        by_cases hk : k = (id, notes)
        · rw [if_pos hk, if_pos hk.symm]
          show lineAt k xs = if q ≥ x.quantity then none
              else some { x with quantity := x.quantity - q }
          rw [if_pos hq, hk]
          exact hxsnone
        · rw [if_neg hk, if_neg (fun hc => hk hc.symm)]
      · rw [removeLine_cons_dec hp hq, lineAt_cons, lineAt_cons, lineKey_set_quantity, hkx]
        by_cases hk : k = (id, notes)
        · rw [if_pos hk.symm, if_pos hk, if_pos hk.symm]
          show some { x with quantity := x.quantity - q } =
              if q ≥ x.quantity then none else some { x with quantity := x.quantity - q }
          rw [if_neg hq]
        · rw [if_neg (fun hc => hk hc.symm), if_neg hk, if_neg (fun hc => hk hc.symm)]
    · have hp' : keyPred id notes x = false := by
        simpa using hp
      have hkx : lineKey x ≠ (id, notes) := fun he => by
        rw [keyPred_iff.mpr he] at hp'
        simp at hp'
      rw [removeLine_cons_neg hp', lineAt_cons, lineAt_cons, ih hxs]
      by_cases hxk : lineKey x = k
      · have hk : ¬ k = (id, notes) := fun he => hkx (hxk.trans he)
        rw [if_pos hxk, if_neg hk, if_pos hxk]
      · rw [if_neg hxk, if_neg hxk]

theorem lineAt_foldl_add (menu : List MenuItem) (rs : List OrderRequest) (k : String × String) :
    ∀ {w : List OrderItem}, (∀ r ∈ rs, (resolveItem menu r.itemName).isSome = true) →
      transformFreeB menu rs w = true →
      lineAt k (rs.foldl (orderWorkingStep menu) w) =
        addFoldK (projAdds menu rs k) (lineAt k w) := by
  induction rs with
  | nil =>
    intro w _ _
    rfl
  | cons r rs ih =>
    intro w hres hnt
    simp only [transformFreeB, Bool.and_eq_true, Bool.not_eq_true'] at hnt
    obtain ⟨hstep0, htail⟩ := hnt
    obtain ⟨mi, hmi⟩ := Option.isSome_iff_exists.mp (hres r (by simp))
    rw [List.foldl_cons, ih (fun x hx => hres x (by simp [hx])) htail,
      orderWorkingStep_view hmi hstep0, lineAt_addLine]
    have hproj : projAdds menu (r :: rs) k =
        (if (mi.id, normNotes r.customizationNotes) = k
         then (mi, r.quantity, normNotes r.customizationNotes) :: projAdds menu rs k
         else projAdds menu rs k) := by
      by_cases hkk : (mi.id, normNotes r.customizationNotes) = k <;>
        simp [projAdds, List.filterMap_cons, hmi, hkk]
    by_cases hkk : (mi.id, normNotes r.customizationNotes) = k
    · rw [hproj, if_pos hkk, if_pos hkk.symm]
      show addFoldK (projAdds menu rs k)
          (match lineAt k w with
           | some l => some { l with quantity := l.quantity + r.quantity }
           | none => some (mkLine mi r.quantity (normNotes r.customizationNotes))) = _
      cases hw : lineAt k w with
      | some l => rfl
      | none => rfl
    · rw [hproj, if_neg hkk, if_neg (fun hc => hkk hc.symm)]

theorem lineAt_foldl_remove (menu : List MenuItem) (rs : List OrderRequest)
    (k : String × String) :
    ∀ {w : List OrderItem}, (∀ r ∈ rs, (resolveItem menu r.itemName).isSome = true) →
      keysNodup w →
      lineAt k (rs.foldl (removalWorkingStep menu) w) =
        remFoldK (projAdds menu rs k) (lineAt k w) := by
  induction rs with
  | nil =>
    intro w _ _
    rfl
  | cons r rs ih =>
    intro w hres hnd
    obtain ⟨mi, hmi⟩ := Option.isSome_iff_exists.mp (hres r (by simp))
    have hnd' : keysNodup (removalWorkingStep menu w r) :=
      keysNodup_removalWorkingStep menu r hnd
    rw [List.foldl_cons, ih (fun x hx => hres x (by simp [hx])) hnd',
      removalWorkingStep_view w hmi, lineAt_removeLine _ _ _ hnd]
    have hproj : projAdds menu (r :: rs) k =
        (if (mi.id, normNotes r.customizationNotes) = k
         then (mi, r.quantity, normNotes r.customizationNotes) :: projAdds menu rs k
         else projAdds menu rs k) := by
      by_cases hkk : (mi.id, normNotes r.customizationNotes) = k <;>
        simp [projAdds, List.filterMap_cons, hmi, hkk]
    by_cases hkk : (mi.id, normNotes r.customizationNotes) = k
    · rw [hproj, if_pos hkk, if_pos hkk.symm]
      show remFoldK (projAdds menu rs k)
          (match lineAt k w with
           | none => none
           | some l => if r.quantity ≥ l.quantity then none
                       else some { l with quantity := l.quantity - r.quantity }) = _
      cases hw : lineAt k w with
      | some l => rfl
      | none => rfl
    · rw [hproj, if_neg hkk, if_neg (fun hc => hkk hc.symm)]

theorem mem_projAdds_quantity {menu : List MenuItem} {rs : List OrderRequest}
    {k : String × String} {p : MenuItem × ℤ × String} (h : p ∈ projAdds menu rs k) :
    ∃ r ∈ rs, p.2.1 = r.quantity := by
  obtain ⟨r, hr, hfr⟩ := List.mem_filterMap.mp h
  refine ⟨r, hr, ?_⟩
  cases hres : resolveItem menu r.itemName with
  | none => rw [hres] at hfr; simp at hfr
  | some mi =>
    rw [hres] at hfr
    have hfr' : (if (mi.id, normNotes r.customizationNotes) = k
        then some (mi, r.quantity, normNotes r.customizationNotes) else none) = some p := hfr
    by_cases hkk : (mi.id, normNotes r.customizationNotes) = k
    · rw [if_pos hkk] at hfr'
      obtain rfl := Option.some_inj.mp hfr'
      rfl
    · rw [if_neg hkk] at hfr'
      simp at hfr'

/-- Core of the add/remove round trip: after applying a transform-free,
fully-resolving batch of additions and then removals with the same
requests, every key holds exactly the line it held before. -/
theorem lineAt_remove_add_roundtrip (menu : List MenuItem) (rs : List OrderRequest)
    {L : List OrderItem} (hnd : keysNodup L) (hposL : ∀ l ∈ L, 0 < l.quantity)
    (hposR : ∀ r ∈ rs, 0 < r.quantity)
    (hres : ∀ r ∈ rs, (resolveItem menu r.itemName).isSome = true)
    (hnt : transformFreeB menu rs L = true) (k : String × String) :
    lineAt k (rs.foldl (removalWorkingStep menu) (rs.foldl (orderWorkingStep menu) L)) =
      lineAt k L := by
  have hndM : keysNodup (rs.foldl (orderWorkingStep menu) L) :=
    keysNodup_foldl_orderWorkingStep menu rs hnd
  rw [lineAt_foldl_remove menu rs k hres hndM, lineAt_foldl_add menu rs k hres hnt]
  apply remFold_addFold
  · intro p hp
    obtain ⟨r, hr, hq⟩ := mem_projAdds_quantity hp
    rw [hq]
    exact hposR r hr
  · intro l hl
    exact hposL l (lineAt_mem hl).1

/-! ## Pricing lemmas -/

/-- The subtotal as the spec words it: the sum over the lines of
quantity times parsed price. -/
def specSubtotal (items : List OrderItem) : ℚ :=
  (items.map (fun it => (parsePrice it.price).getD 0 * it.quantity)).sum

theorem subtotalNumJs_eq_some {items : List OrderItem}
    (h : ∀ it ∈ items, (parsePrice it.price).isSome = true) :
    subtotalNumJs items = some (specSubtotal items) := by
  have key : ∀ (acc : ℚ),
      items.foldl (fun sum it => jsAdd sum (jsMul (parsePrice it.price) (some (it.quantity : ℚ))))
        (some acc) = some (acc + specSubtotal items) := by
    induction items with
    | nil =>
      intro acc
      simp [specSubtotal]
    | cons it its ih =>
      intro acc
      obtain ⟨p, hp⟩ := Option.isSome_iff_exists.mp (h it (by simp))
      rw [List.foldl_cons]
      have hstep : jsAdd (some acc) (jsMul (parsePrice it.price) (some (it.quantity : ℚ))) =
          some (acc + p * it.quantity) := by
        rw [hp]
        rfl
      rw [hstep, ih (fun x hx => h x (by simp [hx]))]
      have : specSubtotal (it :: its) = p * it.quantity + specSubtotal its := by
        simp [specSubtotal, hp]
      rw [this]
      ring_nf
  have h0 := key 0
  rw [zero_add] at h0
  exact h0

theorem roundTo2_nonneg_form {x : ℚ} (hx : 0 ≤ x) :
    roundTo2 x = (round2Int x : ℚ) / 100 := by
  rw [roundTo2, if_neg (not_lt.mpr hx)]

theorem roundTo2_nonneg {x : ℚ} (hx : 0 ≤ x) : 0 ≤ roundTo2 x := by
  rw [roundTo2_nonneg_form hx]
  have := round2Int_nonneg hx
  positivity

/-- Rounding splits over adding an exact 2-decimal amount: for `m/100` with
`m : ℤ` nonnegative and `g ≥ 0`, `round2(m/100 + g) = m/100 + round2 g`. -/
theorem roundTo2_intdiv_add {m : ℤ} {g : ℚ} (hm : 0 ≤ m) (hg : 0 ≤ g) :
    roundTo2 ((m : ℚ) / 100 + g) = (m : ℚ) / 100 + roundTo2 g := by
  have hmq : (0 : ℚ) ≤ (m : ℚ) / 100 := by positivity
  rw [roundTo2_nonneg_form (by linarith), roundTo2_nonneg_form hg]
  have harg : ((m : ℚ) / 100 + g) * 100 + 1 / 2 = (m : ℚ) + (g * 100 + 1 / 2) := by
    field_simp
    ring
  rw [round2Int, harg, add_comm ((m : ℚ)) (g * 100 + 1 / 2), Int.floor_add_int]
  rw [round2Int]
  push_cast
  ring

theorem roundTo2_idem {x : ℚ} (hx : 0 ≤ x) : roundTo2 (roundTo2 x) = roundTo2 x := by
  have hn := round2Int_nonneg hx
  have h1 : round2Int ((round2Int x : ℚ) / 100) = round2Int x := by
    rw [round2Int]
    have h2 : (round2Int x : ℚ) / 100 * 100 + 1 / 2 = (round2Int x : ℚ) + 1 / 2 := by
      field_simp
    rw [h2]
    exact floor_intCast_add_half _
  rw [roundTo2_nonneg_form hx, roundTo2_nonneg_form (by positivity), h1]

/-! ## Batch with no resolvable name -/

theorem foldl_orderStep_all_unresolved (menu : List MenuItem) (orders : List OrderRequest)
    (acc : BatchAcc) (h : ∀ r ∈ orders, resolveItem menu r.itemName = none) :
    orders.foldl (orderStep menu) acc =
      { acc with notFoundItems := acc.notFoundItems ++ orders.map (fun r => r.itemName) } := by
  induction orders generalizing acc with
  | nil =>
    simp
  | cons r rs ih =>
    rw [List.foldl_cons]
    have hstep : orderStep menu acc r =
        { acc with notFoundItems := acc.notFoundItems ++ [r.itemName] } := by
      unfold orderStep
      rw [h r (by simp)]
    rw [hstep, ih _ (fun x hx => h x (by simp [hx]))]
    simp

/-! ## Concrete fixtures used by the witnesses and the bug demonstrations -/

/-- A ₹100 Burger, as a catalog item. -/
def burgerItem : MenuItem := { id := "m1", name := "Burger", price := .num 100 }

/-- A catalog item whose price is a currency-prefixed string. -/
def pizzaItem : MenuItem := { id := "m2", name := "Pizza", price := .str "₹250.50" }

/-- A catalog item whose price has a third decimal; its subtotal exposes the
pre-tax rounding of the checkout computation. -/
def oddPriceItem : MenuItem := { id := "m9", name := "Odd", price := .num (5003 / 500) }

def sampleMenu : List MenuItem := [burgerItem, pizzaItem]

/-- A plain Burger line of quantity 3. -/
def plainBurger3 : OrderItem := { toMenuItem := burgerItem, quantity := 3 }

/-- A Burger line of quantity 2 (the ₹200.00 example of the spec). -/
def burgerLine2 : OrderItem := { toMenuItem := burgerItem, quantity := 2 }

/-- Session state on the chat page with two Burgers in the Ledger. -/
def chatState : AppState :=
  { currentPage := Page.chat
    orderItems := [burgerLine2]
    currentBillData := none
    tableNumber := "5"
    isSubmitting := false }

/-- A bill snapshot whose money fields are bare numeric strings; it passes
the `Number(...)`-based validation (unlike any checkout-produced snapshot). -/
def bareNumberBill : BillDataType :=
  { items := [burgerLine2]
    subtotal := "200.00"
    gstAmount := "10.00"
    grandTotal := "210.00"
    tableNumber := "5" }

/-- Idle bill-page state holding `bareNumberBill`. -/
def idleBillState : AppState :=
  { currentPage := Page.bill
    orderItems := [burgerLine2]
    currentBillData := some bareNumberBill
    tableNumber := "5"
    isSubmitting := false }

theorem lineAt_ne_none_of_key_mem {k : String × String} {w : List OrderItem}
    (h : k ∈ w.map lineKey) : lineAt k w ≠ none := by
  induction w with
  | nil => simp at h
  | cons y ys ih =>
    rw [lineAt_cons]
    by_cases hy : lineKey y = k
    · rw [if_pos hy]
      simp
    · rw [if_neg hy]
      apply ih
      simp only [List.map_cons, List.mem_cons] at h
      rcases h with h | h
      · exact absurd h.symm hy
      · exact h

theorem lineAt_eq_none_iff {k : String × String} {w : List OrderItem} :
    lineAt k w = none ↔ k ∉ w.map lineKey := by
  constructor
  · intro h hmem
    exact lineAt_ne_none_of_key_mem hmem h
  · exact lineAt_eq_none_of_not_mem

theorem findIdxA_none_iff_lineAt_none {id notes : String} {w : List OrderItem} :
    findIdxA (keyPred id notes) w = none ↔ lineAt (id, notes) w = none := by
  rw [findIdxA_eq_none_iff, lineAt_eq_none_iff]
  constructor
  · intro h hmem
    obtain ⟨x, hx, hkey⟩ := List.mem_map.mp hmem
    have := h x hx
    rw [keyPred_iff.mpr hkey] at this
    simp at this
  · intro h x hx
    by_cases hp : keyPred id notes x = true
    · exact absurd (keyPred_iff.mp hp ▸ List.mem_map_of_mem lineKey hx) h
    · simpa using hp

theorem lineAt_append_singleton (k : String × String) (a : List OrderItem) (x : OrderItem) :
    lineAt k (a ++ [x]) =
      match lineAt k a with
      | some l => some l
      | none => if lineKey x = k then some x else none := by
  induction a with
  | nil => rfl
  | cons y ys ih =>
    show lineAt k (y :: (ys ++ [x])) = _
    rw [lineAt_cons, lineAt_cons]
    by_cases hy : lineKey y = k
    · rw [if_pos hy, if_pos hy]
    · rw [if_neg hy, if_neg hy, ih]

theorem lineAt_eraseAt_self {id notes : String} :
    ∀ {w : List OrderItem} {j : ℕ}, keysNodup w →
      findIdxA (keyPred id notes) w = some j →
      lineAt (id, notes) (eraseAt w j) = none := by
  intro w
  induction w with
  | nil => intro j _ hj; simp [findIdxA] at hj
  | cons x xs ih =>
    intro j hnd hj
    have hnd' := hnd
    unfold keysNodup at hnd'
    rw [List.map_cons, List.nodup_cons] at hnd'
    obtain ⟨hxnotin, hxs⟩ := hnd'
    by_cases hp : keyPred id notes x = true
    · have hj0 : j = 0 := by
        rw [findIdxA, if_pos hp] at hj
        exact (Option.some_inj.mp hj).symm
      subst hj0
      show lineAt (id, notes) xs = none
      exact lineAt_eq_none_of_not_mem (keyPred_iff.mp hp ▸ hxnotin)
    · have hp' : keyPred id notes x = false := by simpa using hp
      rw [findIdxA, if_neg (by simp [hp'])] at hj
      cases hfx : findIdxA (keyPred id notes) xs with
      | none => rw [hfx] at hj; simp at hj
      | some i =>
        rw [hfx] at hj
        simp only [Option.map_some', Option.some_inj] at hj
        subst hj
        show lineAt (id, notes) (x :: eraseAt xs i) = none
        rw [lineAt_cons, if_neg (fun hc => by rw [keyPred_iff.mpr hc] at hp'; simp at hp')]
        exact ih hxs hfx

theorem lineAt_eraseAt_other {id notes : String} :
    ∀ {w : List OrderItem} {j : ℕ}, findIdxA (keyPred id notes) w = some j →
      ∀ k, k ≠ (id, notes) → lineAt k (eraseAt w j) = lineAt k w := by
  intro w
  induction w with
  | nil => intro j hj; simp [findIdxA] at hj
  | cons x xs ih =>
    intro j hj k hk
    by_cases hp : keyPred id notes x = true
    · have hj0 : j = 0 := by
        rw [findIdxA, if_pos hp] at hj
        exact (Option.some_inj.mp hj).symm
      subst hj0
      show lineAt k xs = lineAt k (x :: xs)
      rw [lineAt_cons, if_neg (fun hc => hk (hc.symm.trans (keyPred_iff.mp hp)))]
    · have hp' : keyPred id notes x = false := by simpa using hp
      rw [findIdxA, if_neg (by simp [hp'])] at hj
      cases hfx : findIdxA (keyPred id notes) xs with
      | none => rw [hfx] at hj; simp at hj
      | some i =>
        rw [hfx] at hj
        simp only [Option.map_some', Option.some_inj] at hj
        subst hj
        show lineAt k (x :: eraseAt xs i) = lineAt k (x :: xs)
        rw [lineAt_cons, lineAt_cons]
        by_cases hy : lineKey x = k
        · rw [if_pos hy, if_pos hy]
        · rw [if_neg hy, if_neg hy]
          exact ih hfx k hk

/-! ## Claims -/

/-- C2: for every batch of addition requests (each with positive quantity)
applied to a Ledger with no two lines sharing `(id, normalized-notes)`, the
Ledger returned by `handleMultiItemOrder` also has no two such lines, and
`handleAddItemToOrder` preserves the same invariant. -/
theorem c2_batch_add_preserves_key_uniqueness (menu : List MenuItem)
    (orders : List OrderRequest) (prev : List OrderItem)
    (_hq : ∀ r ∈ orders, 0 < r.quantity) (hnd : keysNodup prev)
    (itemToAdd : MenuItem) (q : ℤ) (notes : Option String) :
    keysNodup (handleMultiItemOrder menu orders prev).1 ∧
    keysNodup (handleAddItemToOrder itemToAdd q notes prev) := by
  constructor
  · rw [handleMultiItemOrder_fst]
    exact keysNodup_foldl_orderWorkingStep menu orders hnd
  · exact keysNodup_handleAddItemToOrder itemToAdd q notes hnd

theorem c2_witness :
    (∀ r ∈ [OrderRequest.mk "Burger" 2 none, OrderRequest.mk "Pizza" 1 (some "spicy")],
      0 < r.quantity) ∧
    keysNodup (handleMultiItemOrder sampleMenu
      [OrderRequest.mk "Burger" 2 none, OrderRequest.mk "Pizza" 1 (some "spicy")]
      [plainBurger3]).1 ∧
    keysNodup (handleAddItemToOrder burgerItem 1 (some "no onion") [plainBurger3]) :=
  ⟨by decide,
   c2_batch_add_preserves_key_uniqueness sampleMenu
     [OrderRequest.mk "Burger" 2 none, OrderRequest.mk "Pizza" 1 (some "spicy")]
     [plainBurger3] (by decide) (by decide) burgerItem 1 (some "no onion")⟩

/-- C3: when an addition with non-empty normalized notes finds no exact
`(id, notes)` line but a plain line exists, the step removes the plain line
entirely and creates the `(id, notes)` line with exactly the requested
quantity (the plain line's prior quantity is discarded); all other keys are
untouched. -/
theorem c3_transform_discards_plain_quantity
    {menu : List MenuItem} {w : List OrderItem} {r : OrderRequest} {mi : MenuItem}
    {pl : OrderItem}
    (hres : resolveItem menu r.itemName = some mi)
    (hn : normNotes r.customizationNotes ≠ "")
    (hnone : lineAt (mi.id, normNotes r.customizationNotes) w = none)
    (hplain : lineAt (mi.id, "") w = some pl)
    (hnd : keysNodup w) :
    lineAt (mi.id, "") (orderWorkingStep menu w r) = none ∧
    lineAt (mi.id, normNotes r.customizationNotes) (orderWorkingStep menu w r) =
      some (mkLine mi r.quantity (normNotes r.customizationNotes)) ∧
    (∀ k, k ≠ (mi.id, "") → k ≠ (mi.id, normNotes r.customizationNotes) →
      lineAt k (orderWorkingStep menu w r) = lineAt k w) := by
  have hfexact : findIdxA (keyPred mi.id (normNotes r.customizationNotes)) w = none :=
    findIdxA_none_iff_lineAt_none.mpr hnone
  have hfplain_ne : findIdxA (keyPred mi.id "") w ≠ none := by
    intro h
    rw [findIdxA_none_iff_lineAt_none.mp h] at hplain
    exact Option.noConfusion hplain
  obtain ⟨j, hj⟩ := Option.ne_none_iff_exists'.mp hfplain_ne
  have herased : lineAt (mi.id, normNotes r.customizationNotes) (eraseAt w j) = none :=
    lineAt_eq_none_iff.mpr (fun hmem =>
      lineAt_eq_none_iff.mp hnone (((eraseAt_sublist w j).map lineKey).subset hmem))
  have hstep : orderWorkingStep menu w r =
      eraseAt w j ++ [mkLine mi r.quantity (normNotes r.customizationNotes)] := by
    unfold orderWorkingStep
    rw [hres]
    dsimp only
    rw [hfexact]
    dsimp only
    rw [if_pos hn, hj]
    dsimp only
    rw [findIdxA_none_iff_lineAt_none.mpr herased]
  rw [hstep]
  refine ⟨?_, ?_, ?_⟩
  · rw [lineAt_append_singleton, lineAt_eraseAt_self hnd hj]
    show (if lineKey (mkLine mi r.quantity (normNotes r.customizationNotes)) = (mi.id, "")
          then some (mkLine mi r.quantity (normNotes r.customizationNotes)) else none) = none
    rw [lineKey_mkLine]
    exact if_neg (fun hc => hn (congrArg Prod.snd hc))
  · rw [lineAt_append_singleton, herased]
    show (if lineKey (mkLine mi r.quantity (normNotes r.customizationNotes)) =
            (mi.id, normNotes r.customizationNotes)
          then some (mkLine mi r.quantity (normNotes r.customizationNotes)) else none) = _
    rw [lineKey_mkLine, if_pos rfl]
  · intro k hkp hke
    rw [lineAt_append_singleton, lineAt_eraseAt_other hj k hkp]
    cases hw : lineAt k w with
    | some l => rfl
    | none =>
      show (if lineKey (mkLine mi r.quantity (normNotes r.customizationNotes)) = k
            then some (mkLine mi r.quantity (normNotes r.customizationNotes)) else none) = none
      rw [lineKey_mkLine]
      exact if_neg (fun hc => hke hc.symm)

theorem c3_witness :
    lineAt (burgerItem.id, "") (orderWorkingStep sampleMenu [plainBurger3]
      (OrderRequest.mk "Burger" 1 (some "no onion"))) = none ∧
    lineAt (burgerItem.id, "no onion") (orderWorkingStep sampleMenu [plainBurger3]
      (OrderRequest.mk "Burger" 1 (some "no onion"))) =
      some (mkLine burgerItem 1 "no onion") :=
  ⟨(@c3_transform_discards_plain_quantity sampleMenu [plainBurger3]
      (OrderRequest.mk "Burger" 1 (some "no onion")) burgerItem plainBurger3
      (by decide) (by decide) (by decide) (by decide) (by decide)).1,
   (@c3_transform_discards_plain_quantity sampleMenu [plainBurger3]
      (OrderRequest.mk "Burger" 1 (some "no onion")) burgerItem plainBurger3
      (by decide) (by decide) (by decide) (by decide) (by decide)).2.1⟩

/-- C5: a removal request that resolves and matches a line deletes the line
when the requested quantity is at least the line's quantity, otherwise
decrements by exactly that quantity, leaving at least 1; other keys are
untouched. -/
theorem c5_removal_clamps
    {menu : List MenuItem} {w : List OrderItem} {r : OrderRequest} {mi : MenuItem}
    {l : OrderItem}
    (hres : resolveItem menu r.itemName = some mi)
    (hline : lineAt (mi.id, normNotes r.customizationNotes) w = some l)
    (hnd : keysNodup w) :
    (r.quantity ≥ l.quantity →
      lineAt (mi.id, normNotes r.customizationNotes) (removalWorkingStep menu w r) = none) ∧
    (r.quantity < l.quantity →
      lineAt (mi.id, normNotes r.customizationNotes) (removalWorkingStep menu w r) =
        some { l with quantity := l.quantity - r.quantity } ∧
      1 ≤ l.quantity - r.quantity) ∧
    (∀ k, k ≠ (mi.id, normNotes r.customizationNotes) →
      lineAt k (removalWorkingStep menu w r) = lineAt k w) := by
  rw [removalWorkingStep_view w hres]
  refine ⟨?_, ?_, ?_⟩
  · intro hge
    rw [lineAt_removeLine _ _ _ hnd, if_pos rfl, hline]
    show (if r.quantity ≥ l.quantity then none
          else some { l with quantity := l.quantity - r.quantity }) = none
    rw [if_pos hge]
  · intro hlt
    refine ⟨?_, by omega⟩
    rw [lineAt_removeLine _ _ _ hnd, if_pos rfl, hline]
    show (if r.quantity ≥ l.quantity then none
          else some { l with quantity := l.quantity - r.quantity }) = _
    rw [if_neg (by omega)]
  · intro k hk
    rw [lineAt_removeLine _ _ _ hnd, if_neg hk]

theorem c5_witness :
    lineAt (burgerItem.id, "") (removalWorkingStep sampleMenu [plainBurger3]
      (OrderRequest.mk "Burger" 1 none)) =
      some { plainBurger3 with quantity := 2 } ∧
    lineAt (burgerItem.id, "") (removalWorkingStep sampleMenu [plainBurger3]
      (OrderRequest.mk "Burger" 5 none)) = none :=
  ⟨by
    have h := (@c5_removal_clamps sampleMenu [plainBurger3]
      (OrderRequest.mk "Burger" 1 none) burgerItem plainBurger3
      (by decide) (by decide) (by decide)).2.1 (by decide)
    exact h.1,
   (@c5_removal_clamps sampleMenu [plainBurger3]
      (OrderRequest.mk "Burger" 5 none) burgerItem plainBurger3
      (by decide) (by decide) (by decide)).1 (by decide)⟩

/-- C6: applying a batch of additions (positive quantities, resolvable
names, no transform rule triggered) and then the removals with exactly the
inverse requests returns a Ledger set-equal to the original. -/
theorem c6_add_then_remove_roundtrip (menu : List MenuItem) (rs : List OrderRequest)
    (L : List OrderItem) (hnd : keysNodup L) (hposL : ∀ l ∈ L, 0 < l.quantity)
    (hposR : ∀ r ∈ rs, 0 < r.quantity)
    (hres : ∀ r ∈ rs, (resolveItem menu r.itemName).isSome = true)
    (hnt : transformFreeB menu rs L = true) :
    ∀ x : OrderItem,
      x ∈ (handleMultiItemRemoval menu rs (handleMultiItemOrder menu rs L).1).1 ↔ x ∈ L := by
  intro x
  rw [handleMultiItemOrder_fst, handleMultiItemRemoval_fst]
  have hndM : keysNodup (rs.foldl (orderWorkingStep menu) L) :=
    keysNodup_foldl_orderWorkingStep menu rs hnd
  have hndF : keysNodup (rs.foldl (removalWorkingStep menu)
      (rs.foldl (orderWorkingStep menu) L)) :=
    keysNodup_foldl_removalWorkingStep menu rs hndM
  have hkey := lineAt_remove_add_roundtrip menu rs hnd hposL hposR hres hnt
  constructor
  · intro hx
    have h1 := mem_lineAt hndF hx
    rw [hkey (lineKey x)] at h1
    exact (lineAt_mem h1).1
  · intro hx
    have h1 := mem_lineAt hnd hx
    rw [← hkey (lineKey x)] at h1
    exact (lineAt_mem h1).1

theorem c6_witness :
    transformFreeB sampleMenu
      [OrderRequest.mk "Burger" 2 none, OrderRequest.mk "Pizza" 1 none] [plainBurger3] = true ∧
    (burgerLine2 ∈ (handleMultiItemRemoval sampleMenu
        [OrderRequest.mk "Burger" 2 none, OrderRequest.mk "Pizza" 1 none]
        (handleMultiItemOrder sampleMenu
          [OrderRequest.mk "Burger" 2 none, OrderRequest.mk "Pizza" 1 none]
          [plainBurger3]).1).1 ↔
      burgerLine2 ∈ [plainBurger3]) :=
  ⟨by decide,
   c6_add_then_remove_roundtrip sampleMenu
     [OrderRequest.mk "Burger" 2 none, OrderRequest.mk "Pizza" 1 none] [plainBurger3]
     (by decide) (by decide) (by decide) (by decide) (by decide) burgerLine2⟩

/-- C7: an additions batch in which every name fails catalog resolution
leaves the Ledger unchanged, emits exactly one "Could not find" message
listing all the names, and does not emit the generic message. -/
theorem c7_all_unresolved_batch (menu : List MenuItem) (orders : List OrderRequest)
    (prev : List OrderItem) (hne : orders ≠ [])
    (hall : ∀ r ∈ orders, resolveItem menu r.itemName = none) :
    (handleMultiItemOrder menu orders prev).1 = prev ∧
    (handleMultiItemOrder menu orders prev).2 =
      ["Could not find: " ++ String.intercalate ", " (orders.map (fun r => r.itemName)) ++
        " on the menu."] ∧
    "I couldn\x27t identify any items from your request to add to the order." ∉
      (handleMultiItemOrder menu orders prev).2 := by
  have hfold := foldl_orderStep_all_unresolved menu orders ⟨prev, false, [], []⟩ hall
  have hmapne : orders.map (fun r => r.itemName) ≠ [] := by
    intro h
    exact hne (List.map_eq_nil_iff.mp h)
  have hie : (([] : List String) ++ orders.map (fun r => r.itemName)).isEmpty = false := by
    rw [List.nil_append]
    cases ho : orders.map (fun r => r.itemName) with
    | nil => exact absurd ho hmapne
    | cons a t => rfl
  have h2 : (handleMultiItemOrder menu orders prev).2 =
      ["Could not find: " ++ String.intercalate ", " (orders.map (fun r => r.itemName)) ++
        " on the menu."] := by
    unfold handleMultiItemOrder
    rw [hfold]
    simp [hie, hne]
  refine ⟨?_, h2, ?_⟩
  · unfold handleMultiItemOrder
    rw [hfold]
  · rw [h2]
    intro hmem
    rw [List.mem_singleton] at hmem
    have hhead := congrArg (fun s : String => s.data.head?) hmem
    have hC : (("Could not find: " ++ String.intercalate ", " (orders.map (fun r => r.itemName)) ++
        " on the menu.").data).head? = some 'C' := by
      rw [String.data_append, String.data_append]
      rfl
    simp only at hhead
    rw [hC] at hhead
    exact absurd hhead (by decide)

theorem c7_witness :
    ([OrderRequest.mk "Sushi" 1 none, OrderRequest.mk "Ramen" 2 none] ≠
      ([] : List OrderRequest)) ∧
    (handleMultiItemOrder sampleMenu
      [OrderRequest.mk "Sushi" 1 none, OrderRequest.mk "Ramen" 2 none] [plainBurger3]).1 =
      [plainBurger3] ∧
    (handleMultiItemOrder sampleMenu
      [OrderRequest.mk "Sushi" 1 none, OrderRequest.mk "Ramen" 2 none] [plainBurger3]).2 =
      ["Could not find: " ++ String.intercalate ", "
        ([OrderRequest.mk "Sushi" 1 none, OrderRequest.mk "Ramen" 2 none].map
          (fun r => r.itemName)) ++ " on the menu."] :=
  ⟨by decide,
   (c7_all_unresolved_batch sampleMenu
     [OrderRequest.mk "Sushi" 1 none, OrderRequest.mk "Ramen" 2 none] [plainBurger3]
     (by decide) (by decide)).1,
   (c7_all_unresolved_batch sampleMenu
     [OrderRequest.mk "Sushi" 1 none, OrderRequest.mk "Ramen" 2 none] [plainBurger3]
     (by decide) (by decide)).2.1⟩

def oddLine : OrderItem :=
  { toMenuItem := oddPriceItem, quantity := 1, customizationNotes := none }

/-- C4 counterexample: the gst amount computed at checkout is not the
unrounded subtotal times the rate: for one line of price 10.006 (quantity
1) at rate 1/2, the code computes `parsePrice(calculateSubtotal(...)) *
rate = 10.01 * 1/2 = 5.005`, while the unrounded product is 5.003. -/
theorem c4_counterexample :
    checkoutGstNum [oddLine] (1 / 2) ≠ jsMul (subtotalNumJs [oddLine]) (some (1 / 2)) := by
  with_unfolding_all decide

/-- C4 (amended): the subtotal is the sum of quantity times parsed price,
but the checkout computation rounds it to 2 decimals (format-then-reparse)
before computing gst, so `gstAmountNum = round2(subtotal) * rate` and
`grandTotalNum = round2(subtotal) + gstAmountNum`; the formatted grandTotal
still equals the formatted subtotal plus the formatted gstAmount at
2-decimal precision. -/
theorem c4_amended_rounded_subtotal (items : List OrderItem) (rate : ℚ)
    (hp : ∀ it ∈ items, (parsePrice it.price).isSome = true)
    (hS : 0 ≤ specSubtotal items) (hr : 0 ≤ rate) :
    calculateSubtotal items = formatPrice (specSubtotal items) ∧
    checkoutSubtotalNum items = some (roundTo2 (specSubtotal items)) ∧
    checkoutGstNum items rate = some (roundTo2 (specSubtotal items) * rate) ∧
    checkoutGrandNum items rate =
      some (roundTo2 (specSubtotal items) + roundTo2 (specSubtotal items) * rate) ∧
    ∃ a b c : ℚ,
      parsePrice (.str (formatPriceJs (checkoutSubtotalNum items))) = some a ∧
      parsePrice (.str (formatPriceJs (checkoutGstNum items rate))) = some b ∧
      parsePrice (.str (formatPriceJs (checkoutGrandNum items rate))) = some c ∧
      c = a + b := by
  have hsub := subtotalNumJs_eq_some hp
  have hcalc : calculateSubtotal items = formatPrice (specSubtotal items) := by
    unfold calculateSubtotal
    rw [hsub]
    rfl
  have hck : checkoutSubtotalNum items = some (roundTo2 (specSubtotal items)) := by
    unfold checkoutSubtotalNum
    rw [hcalc]
    exact parsePrice_formatPrice _
  have hgst : checkoutGstNum items rate = some (roundTo2 (specSubtotal items) * rate) := by
    unfold checkoutGstNum
    rw [hck]
    rfl
  have hgrand : checkoutGrandNum items rate =
      some (roundTo2 (specSubtotal items) + roundTo2 (specSubtotal items) * rate) := by
    unfold checkoutGrandNum
    rw [hck, hgst]
    rfl
  have hS' : 0 ≤ roundTo2 (specSubtotal items) := roundTo2_nonneg hS
  have hidem : roundTo2 (roundTo2 (specSubtotal items)) = roundTo2 (specSubtotal items) :=
    roundTo2_idem hS
  have hsplit : roundTo2 (roundTo2 (specSubtotal items) + roundTo2 (specSubtotal items) * rate) =
      roundTo2 (specSubtotal items) + roundTo2 (roundTo2 (specSubtotal items) * rate) := by
    have hm : 0 ≤ round2Int (specSubtotal items) := round2Int_nonneg hS
    have hform : roundTo2 (specSubtotal items) =
        (round2Int (specSubtotal items) : ℚ) / 100 := roundTo2_nonneg_form hS
    rw [hform]
    exact roundTo2_intdiv_add hm (mul_nonneg (by positivity) hr)
  refine ⟨hcalc, hck, hgst, hgrand, roundTo2 (specSubtotal items),
    roundTo2 (roundTo2 (specSubtotal items) * rate),
    roundTo2 (specSubtotal items) + roundTo2 (roundTo2 (specSubtotal items) * rate),
    ?_, ?_, ?_, ?_⟩
  · rw [hck]
    show parsePrice (.str (formatPrice (roundTo2 (specSubtotal items)))) = _
    rw [parsePrice_formatPrice, hidem]
  · rw [hgst]
    exact parsePrice_formatPrice _
  · rw [hgrand]
    show parsePrice (.str (formatPrice (roundTo2 (specSubtotal items) +
      roundTo2 (specSubtotal items) * rate))) = _
    rw [parsePrice_formatPrice, hsplit]
  · rfl

theorem c4_witness :
    (0 : ℚ) ≤ specSubtotal [burgerLine2] ∧
    checkoutSubtotalNum [burgerLine2] = some (roundTo2 (specSubtotal [burgerLine2])) ∧
    checkoutGstNum [burgerLine2] (1 / 20) =
      some (roundTo2 (specSubtotal [burgerLine2]) * (1 / 20)) :=
  ⟨by with_unfolding_all decide,
   (c4_amended_rounded_subtotal [burgerLine2] (1 / 20) (by decide)
     (by with_unfolding_all decide) (by norm_num)).2.1,
   (c4_amended_rounded_subtotal [burgerLine2] (1 / 20) (by decide)
     (by with_unfolding_all decide) (by norm_num)).2.2.1⟩

/-- C9: the Money conversions round-trip: `parse(format(x))` is `x` rounded
to 2 decimals for every amount, and `format(parse(s)) = s` for every valid
currency-prefixed 2-decimal string. -/
theorem c9_money_roundtrip :
    (∀ x : ℚ, parsePrice (.str (formatPrice x)) = some (roundTo2 x)) ∧
    (∀ s : String, validMoney s = true →
      ∃ q : ℚ, parsePrice (.str s) = some q ∧ formatPrice q = s) :=
  ⟨parsePrice_formatPrice, fun _ h => formatPrice_parsePrice h⟩

theorem c9_witness :
    validMoney "₹7.50" = true ∧
    (∃ q : ℚ, parsePrice (.str "₹7.50") = some q ∧ formatPrice q = "₹7.50") ∧
    parsePrice (.str (formatPrice (5 / 4))) = some (roundTo2 (5 / 4)) :=
  ⟨by decide, c9_money_roundtrip.2 "₹7.50" (by decide), c9_money_roundtrip.1 (5 / 4)⟩

/-- The bill snapshot produced by checking out `chatState`. -/
def checkoutBill (rate : ℚ) : BillDataType :=
  { items := [burgerLine2]
    subtotal := formatPriceJs (checkoutSubtotalNum [burgerLine2])
    gstAmount := formatPriceJs (checkoutGstNum [burgerLine2] rate)
    grandTotal := formatPriceJs (checkoutGrandNum [burgerLine2] rate)
    tableNumber := "5" }

/-- The state after checking out `chatState`. -/
def billState (rate : ℚ) : AppState :=
  { chatState with
    currentBillData := some (checkoutBill rate)
    currentPage := Page.bill }

theorem confirmTrigger_invalid (s : AppState) (wr : ℕ) (bd : BillDataType)
    (h0 : s.isSubmitting = false) (hbd : s.currentBillData = some bd)
    (hv : billIsValid bd = false) :
    confirmTrigger s wr = ({ s with currentPage := Page.finalConfirmation }, wr) := by
  unfold confirmTrigger
  rw [h0, if_neg (by decide), hbd]
  dsimp only
  rw [hv, if_neg (by decide)]

/-- C1 (bug demonstration): for the two-Burger session, checkout snapshots
the bill with subtotal "₹200.00", but the confirm flow judges that snapshot
invalid — `Number("₹200.00")` is NaN — so it performs no remote write,
leaves the Ledger uncleared, and falls through to the confirmation page. -/
theorem c1_confirm_flow_rejects_checkout_bill (rate : ℚ) :
    ∃ bd : BillDataType,
      (handleCheckoutAndGoToBill rate chatState).2.currentBillData = some bd ∧
      bd.subtotal = "₹200.00" ∧
      billIsValid bd = false ∧
      confirmTrigger (handleCheckoutAndGoToBill rate chatState).2 0 =
        ({ (handleCheckoutAndGoToBill rate chatState).2 with
            currentPage := Page.finalConfirmation }, 0) ∧
      (confirmTrigger (handleCheckoutAndGoToBill rate chatState).2 0).1.orderItems =
        [burgerLine2] := by
  have hsubstr : formatPriceJs (checkoutSubtotalNum [burgerLine2]) = "₹200.00" := by
    with_unfolding_all rfl
  have hchk : (handleCheckoutAndGoToBill rate chatState).2 = billState rate := by
    unfold handleCheckoutAndGoToBill billState checkoutBill
    rfl
  have hjs : (jsNumber "₹200.00").isSome = false := by decide
  have hsub2 : (checkoutBill rate).subtotal = "₹200.00" := hsubstr
  have hvalid : billIsValid (checkoutBill rate) = false := by
    unfold billIsValid
    rw [hsub2]
    rw [hjs]
    simp
  have htrig : confirmTrigger (billState rate) 0 =
      ({ billState rate with currentPage := Page.finalConfirmation }, 0) :=
    confirmTrigger_invalid (billState rate) 0 (checkoutBill rate) rfl rfl hvalid
  refine ⟨checkoutBill rate, ?_, hsub2, hvalid, ?_, ?_⟩
  · rw [hchk]
    rfl
  · rw [hchk]
    exact htrig
  · rw [hchk, htrig]
    rfl

/-- C8: a confirm trigger in the submitting state is a no-op (state and
write count unchanged), so two rapid triggers from a valid idle state
produce the same state as one and, after the in-flight write resolves,
exactly one write has been issued. -/
theorem c8_single_write_guard :
    (∀ (s : AppState) (wr : ℕ), s.isSubmitting = true → confirmTrigger s wr = (s, wr)) ∧
    (∀ (s : AppState) (wr : ℕ) (bd : BillDataType) (ok : Bool),
      s.isSubmitting = false → s.currentBillData = some bd → billIsValid bd = true →
      confirmTrigger (confirmTrigger s wr).1 (confirmTrigger s wr).2 = confirmTrigger s wr ∧
      (confirmResolve ok (confirmTrigger s wr).1 (confirmTrigger s wr).2).2 = wr + 1) := by
  constructor
  · intro s wr h
    unfold confirmTrigger
    rw [if_pos h]
  · intro s wr bd ok h0 hbd hv
    have h1 : confirmTrigger s wr = ({ s with isSubmitting := true }, wr + 1) := by
      unfold confirmTrigger
      rw [h0, if_neg (by decide), hbd]
      dsimp only
      rw [if_pos hv]
    refine ⟨?_, ?_⟩
    · rw [h1]
      show confirmTrigger { s with isSubmitting := true } (wr + 1) = _
      unfold confirmTrigger
      rw [if_pos (show ({ s with isSubmitting := true } : AppState).isSubmitting = true from rfl)]
    · rw [h1]
      show (confirmResolve ok { s with isSubmitting := true } (wr + 1)).2 = wr + 1
      unfold confirmResolve
      cases ok
      · rfl
      · rfl

theorem c8_witness :
    confirmTrigger { idleBillState with isSubmitting := true } 1 =
      ({ idleBillState with isSubmitting := true }, 1) ∧
    confirmTrigger (confirmTrigger idleBillState 0).1 (confirmTrigger idleBillState 0).2 =
      confirmTrigger idleBillState 0 ∧
    (confirmResolve true (confirmTrigger idleBillState 0).1
      (confirmTrigger idleBillState 0).2).2 = 0 + 1 :=
  ⟨c8_single_write_guard.1 { idleBillState with isSubmitting := true } 1 rfl,
   (c8_single_write_guard.2 idleBillState 0 bareNumberBill true rfl rfl (by decide)).1,
   (c8_single_write_guard.2 idleBillState 0 bareNumberBill true rfl rfl (by decide)).2⟩

/-- C10: checkout on an empty Ledger returns false and changes nothing: the
bill snapshot is left as it was and no navigation happens. -/
theorem c10_empty_checkout_noop (rate : ℚ) (s : AppState) (h : s.orderItems = []) :
    (handleCheckoutAndGoToBill rate s).1 = false ∧
    (handleCheckoutAndGoToBill rate s).2.currentBillData = s.currentBillData ∧
    (handleCheckoutAndGoToBill rate s).2.currentPage = s.currentPage := by
  have he : s.orderItems.isEmpty = true := by
    rw [h]
    rfl
  unfold handleCheckoutAndGoToBill
  rw [if_pos he]
  exact ⟨rfl, rfl, rfl⟩

theorem c10_witness :
    ((AppState.mk Page.chat [] none "" false).orderItems = []) ∧
    (handleCheckoutAndGoToBill (1 / 20) (AppState.mk Page.chat [] none "" false)).1 = false ∧
    (handleCheckoutAndGoToBill (1 / 20)
      (AppState.mk Page.chat [] none "" false)).2.currentPage = Page.chat :=
  ⟨rfl,
   (c10_empty_checkout_noop (1 / 20) (AppState.mk Page.chat [] none "" false) rfl).1,
   (c10_empty_checkout_noop (1 / 20) (AppState.mk Page.chat [] none "" false) rfl).2.2⟩

end DineBot
